import Mathlib

/-!
Verification of the transis value-classification and cycle-safe deep-equality
engine (src/src/util.js), shallowly embedded in Lean 4.

Modelling choices, each traceable to the source:

* JavaScript values form possibly-cyclic graphs.  We embed them as a `Value`
  (immediate primitives plus references) together with a `Heap` (a list of
  `Node`s indexed by address).  Reference identity (the source's `===` on
  objects) is address equality; `===` on primitives is value equality except
  that the not-a-number sentinel is unequal to itself (`Value.nan`).
* JS numbers are modelled as `Int` plus the distinguished `Value.nan`; a
  `Date`'s time value and a boxed `Number`'s value are `Option Int` with
  `none` standing for a NaN time/value (so `valueOf() === valueOf()` on two
  NaN-valued wrappers is `false`, as in IEEE-754 comparison).
* A `Node.obj` carries `hasProto : Bool`: `false` models an object created
  with no prototype (`Object.create(null)`).  On such an object the source's
  `type` function evaluates `o.hasOwnProperty('callee')` (util.js line 145)
  and `objectEq` evaluates `b.hasOwnProperty(key)` (line 238); both throw a
  TypeError because the method is absent.  A thrown TypeError is modelled as
  `none` from `typeOf`/`hasOwn` and as the `EvalR.thrown` outcome of `run`.
* A `Node.transis` models an instance of the base model object
  (src/unnamed/part_000): it owns a non-enumerable `objectId` (positive in
  the source, `++objectId`) and a prototype method `eq`, modelled as the
  behaviour function `eqFn`.  `util.js` line 166 delegates to it whenever
  `a.objectId` is truthy and `a.eq` is a function.  A plain object that
  happens to carry a truthy `objectId` field and a function-valued `eq`
  field delegates too; `Node.func` carries the behaviour of such a function.
* The global `seenObjects` array with `seen`/`mark`/`unmark` (util.js lines
  3-48) is threaded as an explicit `Seen` state through `run` and returned
  with every result, so that the guard's lifecycle (push before the nested
  comparison, splice afterwards on every exit path, including a propagating
  error) is visible in the embedding.
* `run` is indexed by fuel and is structurally recursive on it; each
  recursive JS call or loop step consumes one unit.  `none` means the fuel
  ran out; we prove that the concrete budget `fuelBound` always suffices, so
  the source's recursion (guarded by `detectRecursion`) terminates.
-/

namespace Transis

/-- Immediate (non-heap) values plus references into the heap.  `nan` is the
IEEE-754 not-a-number sentinel, kept apart from `num` because it is the one
value with `o !== o`. -/
inductive Value where
  | vnull
  | vundefined
  | nan
  | num (n : Int)
  | str (s : String)
  | bool (b : Bool)
  | ref (addr : Nat)
deriving DecidableEq, Repr

/-- Heap nodes: the object shapes distinguished by `toString.call` in
`util.js` `type`.  `obj` is a plain keyed object (`hasProto = false` models
`Object.create(null)`); `transis` is a base model-object instance with its
`objectId` and the behaviour of its `eq` method; `func` carries the behaviour
of a function value when it is invoked as an equality delegate; `boxNum` is a
wrapped `Number`; `foreign` is any shape whose tag the classifier does not
recognize. -/
inductive Node where
  | arr (elems : List Value)
  | args (elems : List Value)
  | obj (hasProto : Bool) (fields : List (String × Value))
  | transis (oid : Nat) (eqFn : Value → Bool) (fields : List (String × Value))
  | date (time : Option Int)
  | regexp (source : String) (global multiline ignoreCase sticky unicode : Bool)
  | boxNum (val : Option Int)
  | func (fn : Value → Bool)
  | foreign

abbrev Heap := List Node

/-- Canonical type tags returned by `type` (util.js lines 122-150). -/
inductive Tag where
  | tnull
  | tundefined
  | tNaN
  | tarray
  | targuments
  | tfunction
  | tstring
  | tnumber
  | tboolean
  | tdate
  | tregexp
  | tobject
  | tunknown
deriving DecidableEq, Repr

/-- JS strict equality `===` on our value domain: reference identity on
objects, value equality on primitives, and `NaN !== NaN`. -/
def jsStrictEq : Value → Value → Bool
  | .nan, _ => false
  | _, .nan => false
  | a, b => a == b

/-- JS truthiness of a value (used by the `a && a.objectId` delegate test). -/
def jsTruthy : Value → Bool
  | .vnull => false
  | .vundefined => false
  | .nan => false
  | .num n => n != 0
  | .str s => s != ""
  | .bool b => b
  | .ref _ => true

/-- First-match association-list lookup, modelling property access on an
object literal (JS object keys are distinct, so first match is the match). -/
def lookupField : List (String × Value) → String → Option Value
  | [], _ => none
  | (k, v) :: rest, key => if k = key then some v else lookupField rest key

/-- Own-property test on a field list. -/
def hasField (fields : List (String × Value)) (key : String) : Bool :=
  fields.any (fun p => p.1 == key)

/-- The classifier `type` (util.js lines 122-150).  `none` models the
TypeError raised on line 145 when `o.hasOwnProperty('callee')` is evaluated
on an object with no prototype. -/
def typeOf (h : Heap) : Value → Option Tag
  | .vnull => some .tnull
  | .vundefined => some .tundefined
  | .nan => some .tNaN
  | .num _ => some .tnumber
  | .str _ => some .tstring
  | .bool _ => some .tboolean
  | .ref a =>
    match h[a]? with
    | some (.arr _) => some .tarray
    | some (.args _) => some .targuments
    | some (.func _) => some .tfunction
    | some (.date _) => some .tdate
    | some (.regexp _ _ _ _ _ _) => some .tregexp
    | some (.boxNum _) => some .tnumber
    | some (.obj hasProto fields) =>
      if hasProto then
        if hasField fields "callee" then some .targuments else some .tobject
      else none
    | some (.transis _ _ fields) =>
      if hasField fields "callee" then some .targuments else some .tobject
    | some .foreign => some .tunknown
    | none => some .tunknown

/-- The delegate test of util.js line 166: `a && a.objectId && typeof a.eq
=== 'function'`.  A model-object instance always has a function `eq` on its
prototype and delegates when its `objectId` is truthy (in the source it is
always positive); a plain object delegates when it carries a truthy
`objectId` field and a function-valued `eq` field.  The result is the
behaviour of the invoked `a.eq`. -/
def delegateOf (h : Heap) : Value → Option (Value → Bool)
  | .ref a =>
    match h[a]? with
    | some (.transis oid eqFn _) => if oid != 0 then some eqFn else none
    | some (.obj _ fields) =>
      match lookupField fields "objectId" with
      | some v =>
        if jsTruthy v then
          match lookupField fields "eq" with
          | some (.ref f) =>
            match h[f]? with
            | some (.func fn) => some fn
            | _ => none
          | _ => none
        else none
      | none => none
    | _ => none
  | _ => none

/-- Primitive results of `valueOf()` for the tags whose comparison rule is
`a.valueOf() === b.valueOf()` (util.js line 179). -/
inductive PrimVal where
  | pNaN
  | pInt (n : Int)
  | pStr (s : String)
  | pBool (b : Bool)
  | pRef (a : Nat)
  | pNull
  | pUndefined
deriving DecidableEq, Repr

/-- The `valueOf()` of a value: primitives are their own value, a `Date`
unwraps to its (possibly NaN) time, a boxed `Number` to its (possibly NaN)
number, any other object to itself. -/
def valueOfV (h : Heap) : Value → PrimVal
  | .vnull => .pNull
  | .vundefined => .pUndefined
  | .nan => .pNaN
  | .num n => .pInt n
  | .str s => .pStr s
  | .bool b => .pBool b
  | .ref a =>
    match h[a]? with
    | some (.date none) => .pNaN
    | some (.date (some t)) => .pInt t
    | some (.boxNum none) => .pNaN
    | some (.boxNum (some n)) => .pInt n
    | _ => .pRef a

/-- Strict equality `===` on primitive `valueOf` results: NaN is unequal to
everything, itself included. -/
def primEq : PrimVal → PrimVal → Bool
  | .pNaN, _ => false
  | _, .pNaN => false
  | a, b => a == b

/-- The regexp rule of util.js lines 180-184: only `source`, `global`,
`multiline` and `ignoreCase` are compared; the sticky and unicode flags are
not read by the source. -/
def regexpEq (h : Heap) : Value → Value → Bool
  | .ref x, .ref y =>
    match h[x]?, h[y]? with
    | some (.regexp s1 g1 m1 i1 _ _), some (.regexp s2 g2 m2 i2 _ _) =>
      s1 == s2 && g1 == g2 && m1 == m2 && i1 == i2
    | _, _ => false
  | _, _ => false

/-- The recursion-guard state: the global `seenObjects` list of util.js
line 3, holding the address pairs currently marked. -/
abbrev Seen := List (Nat × Nat)

/-- The `seen` scan of util.js lines 12-22. -/
def seenPair (x y : Nat) (s : Seen) : Bool :=
  s.any (fun p => p.1 == x && p.2 == y)

/-- `mark` (util.js line 30): push the pair at the end. -/
def mark (x y : Nat) (s : Seen) : Seen := s ++ [(x, y)]

/-- `unmark` (util.js lines 39-48): splice out the first occurrence of the
pair. -/
def unmark (x y : Nat) : Seen → Seen
  | [] => []
  | p :: rest => if p = (x, y) then rest else p :: unmark x y rest

/-- Own enumerable string-keyed fields of a node, as `Object.keys` sees
them: present for plain objects and model-object instances (whose
`objectId`, being non-enumerable, is not listed). -/
def ownFields (h : Heap) (a : Nat) : Option (List (String × Value)) :=
  match h[a]? with
  | some (.obj _ fields) => some fields
  | some (.transis _ _ fields) => some fields
  | _ => none

/-- The `b.hasOwnProperty(key)` test of util.js line 238.  `none` models the
TypeError raised when `b` has no prototype; on a model-object instance the
non-enumerable own `objectId` is visible to `hasOwnProperty`. -/
def hasOwn (h : Heap) : Value → String → Option Bool
  | .ref y, key =>
    match h[y]? with
    | some (.obj true fields) => some (hasField fields key)
    | some (.obj false _) => none
    | some (.transis _ _ fields) => some (hasField fields key || key == "objectId")
    | _ => some false
  | _, _ => some false

/-- Property read `b[key]` as used by util.js line 239 after the own-property
check; an absent key reads as `undefined`. -/
def getMember (h : Heap) : Value → String → Value
  | .ref y, key =>
    match h[y]? with
    | some (.obj _ fields) => (lookupField fields key).getD .vundefined
    | some (.transis oid _ fields) =>
      if key = "objectId" then .num (Int.ofNat oid)
      else (lookupField fields key).getD .vundefined
    | _ => .vundefined
  | _, _ => .vundefined

/-- Outcome of a comparison call: a returned boolean, or a propagating
thrown TypeError. -/
inductive EvalR where
  | thrown
  | val (b : Bool)
deriving DecidableEq, Repr

/-- The pending call being evaluated: `eq(a, b)` itself, the bodies of
`arrayEq` and `objectEq`, and the element/key loops those two run inside
`detectRecursion`. -/
inductive Call where
  | cmp (a b : Value)
  | carr (a b : Value)
  | cobj (a b : Value)
  | celems (as_ bs : List Value)
  | cfields (fa : List (String × Value)) (b : Value)

/-- The engine.  Fuel-indexed evaluator for `eq`/`arrayEq`/`objectEq`
(util.js lines 159-244), threading the recursion-guard state:

* `cmp`: identity short-circuit, delegate test, classification of both
  sides (a `none` tag is the classifier's TypeError, which propagates),
  tag mismatch, then the per-tag switch of lines 174-191.  The tags with no
  case (`arguments`, `function`, `NaN`, `null`, `undefined`, `unknown`)
  fall to `default: return false`.
* `carr`: `arrayEq` — `Array.isArray` checks, length check, then the
  element loop wrapped in `detectRecursion`: a pair already marked returns
  `true` without recursing; otherwise the pair is marked, the loop runs,
  and the pair is unmarked on every exit path (the `finally`).
* `cobj`: `objectEq` — `Object.keys` count check, then the key loop wrapped
  in `detectRecursion` the same way.
* `celems`/`cfields`: the loops, short-circuiting on the first `false` and
  propagating a thrown error; `b[i]` beyond the end reads `undefined`.
-/
def run (h : Heap) : Nat → Seen → Call → Option (EvalR × Seen)
  | 0, _, _ => none
  | fuel + 1, seen, c =>
    match c with
    | .cmp a b =>
      if jsStrictEq a b then some (.val true, seen)
      else
        match delegateOf h a with
        | some f => some (.val (f b), seen)
        | none =>
          match typeOf h a with
          | none => some (.thrown, seen)
          | some ta =>
            match typeOf h b with
            | none => some (.thrown, seen)
            | some tb =>
              if ta = tb then
                match ta with
                | .tboolean | .tstring | .tdate | .tnumber =>
                  some (.val (primEq (valueOfV h a) (valueOfV h b)), seen)
                | .tregexp => some (.val (regexpEq h a b), seen)
                | .tarray => run h fuel seen (.carr a b)
                | .tobject => run h fuel seen (.cobj a b)
                | _ => some (.val false, seen)
              else some (.val false, seen)
    | .carr a b =>
      match a, b with
      | .ref x, .ref y =>
        match h[x]?, h[y]? with
        | some (.arr as_), some (.arr bs) =>
          if as_.length = bs.length then
            if seenPair x y seen then some (.val true, seen)
            else
              match run h fuel (mark x y seen) (.celems as_ bs) with
              | none => none
              | some (r, s) => some (r, unmark x y s)
          else some (.val false, seen)
        | _, _ => some (.val false, seen)
      | _, _ => some (.val false, seen)
    | .cobj a b =>
      match a, b with
      | .ref x, .ref y =>
        match ownFields h x, ownFields h y with
        | some fa, some fb =>
          if fa.length = fb.length then
            if seenPair x y seen then some (.val true, seen)
            else
              match run h fuel (mark x y seen) (.cfields fa b) with
              | none => none
              | some (r, s) => some (r, unmark x y s)
          else some (.val false, seen)
        | _, _ => some (.val false, seen)
      | _, _ => some (.val false, seen)
    | .celems as_ bs =>
      match as_ with
      | [] => some (.val true, seen)
      | x :: rest =>
        match run h fuel seen (.cmp x (bs.headD .vundefined)) with
        | some (.val true, s) => run h fuel s (.celems rest bs.tail)
        | some (.val false, s) => some (.val false, s)
        | some (.thrown, s) => some (.thrown, s)
        | none => none
    | .cfields fa b =>
      match fa with
      | [] => some (.val true, seen)
      | (key, v) :: rest =>
        match hasOwn h b key with
        | none => some (.thrown, seen)
        | some false => some (.val false, seen)
        | some true =>
          match run h fuel seen (.cmp v (getMember h b key)) with
          | some (.val true, s) => run h fuel s (.cfields rest b)
          | some (.val false, s) => some (.val false, s)
          | some (.thrown, s) => some (.thrown, s)
          | none => none

/-- `Transis.eq` (util.js line 159) with explicit fuel and guard state. -/
def eq (h : Heap) (fuel : Nat) (seen : Seen) (a b : Value) : Option (EvalR × Seen) :=
  run h fuel seen (.cmp a b)

/-- The exported `arrayEq` (util.js line 200). -/
def arrayEq (h : Heap) (fuel : Nat) (seen : Seen) (a b : Value) : Option (EvalR × Seen) :=
  run h fuel seen (.carr a b)

/-- The exported `objectEq` (util.js line 226). -/
def objectEq (h : Heap) (fuel : Nat) (seen : Seen) (a b : Value) : Option (EvalR × Seen) :=
  run h fuel seen (.cobj a b)

/-- Number of elements/fields of a node, for the fuel budget. -/
def Node.size : Node → Nat
  | .arr es => es.length
  | .args es => es.length
  | .obj _ fs => fs.length
  | .transis _ _ fs => fs.length
  | _ => 0

/-- Largest node size in the heap. -/
def maxNodeLen (h : Heap) : Nat :=
  h.foldr (fun n acc => max n.size acc) 0

/-- A fuel budget sufficient for any comparison over heap `h` (proved
below): the guard admits at most `|h|^2` marked pairs, and each nesting
level costs at most `maxNodeLen h + 3` steps. -/
def fuelBound (h : Heap) : Nat :=
  (maxNodeLen h + 3) * (h.length * h.length + 1)

/-- The public `equals(a, b)`: a top-level `Transis.eq` call, starting from
the empty recursion guard, with the always-sufficient fuel budget. -/
def equals (h : Heap) (a b : Value) : Option (EvalR × Seen) :=
  eq h (fuelBound h) [] a b

/-- A value is an array in the `Array.isArray` sense. -/
def isArrayB (h : Heap) : Value → Bool
  | .ref a =>
    match h[a]? with
    | some (.arr _) => true
    | _ => false
  | _ => false

/-- Validity of the guard state: every marked pair is a pair of heap
addresses. -/
def seenValid (h : Heap) (seen : Seen) : Prop :=
  ∀ p ∈ seen, p.1 < h.length ∧ p.2 < h.length

/-- Fuel requirement for each kind of pending call, measured against the
number of guard entries still available. -/
def callReq (h : Heap) (fuel : Nat) (seen : Seen) : Call → Prop
  | .cmp _ _ => (maxNodeLen h + 3) * (h.length * h.length + 1 - seen.length) ≤ fuel
  | .carr _ _ => (maxNodeLen h + 3) * (h.length * h.length + 1 - seen.length) ≤ fuel + 1
  | .cobj _ _ => (maxNodeLen h + 3) * (h.length * h.length + 1 - seen.length) ≤ fuel + 1
  | .celems as_ _ => as_.length + (maxNodeLen h + 3) * (h.length * h.length + 1 - seen.length) ≤ fuel
  | .cfields fa _ => fa.length + (maxNodeLen h + 3) * (h.length * h.length + 1 - seen.length) ≤ fuel

/-- Heap condition: no plain object lacks a prototype (no
`Object.create(null)` values), so the classifier's `hasOwnProperty` calls
never throw. -/
def protoOKB (h : Heap) : Bool :=
  h.all (fun n => match n with | .obj hasProto _ => hasProto | _ => true)

/-- A call produces the given result with some (hence, by monotonicity, any
larger) fuel. -/
def Runs (h : Heap) (seen : Seen) (c : Call) (res : EvalR × Seen) : Prop :=
  ∃ fuel, run h fuel seen c = some res

/-- Guard state with every pair swapped, relating a comparison to its
mirror image. -/
def mirror (s : Seen) : Seen := s.map (fun p => (p.2, p.1))

/-- Heap condition for the pure structural path: no value anywhere exposes
the equality-delegate capability (no model-object instances, and no plain
object carrying a truthy objectId with a callable eq member). -/
def delegateFreeB (h : Heap) : Bool :=
  (List.range h.length).all (fun a => (delegateOf h (.ref a)).isNone) &&
  h.all (fun n => match n with
    | .transis _ _ _ => false
    | _ => true)

/-- Heap condition: every plain object has pairwise-distinct keys (as JS
objects do). -/
def keysOKB (h : Heap) : Bool :=
  h.all (fun n => match n with
    | .obj _ fields => decide ((fields.map Prod.fst).Nodup)
    | _ => true)

end Transis
namespace Transis

theorem seenPair_iff (x y : Nat) (s : Seen) : seenPair x y s = true ↔ (x, y) ∈ s := by
  simp only [seenPair, List.any_eq_true, Bool.and_eq_true, beq_iff_eq]
  constructor
  · rintro ⟨p, hp, h1, h2⟩
    cases p
    simp only at h1 h2
    subst h1; subst h2; exact hp
  · intro hm
    exact ⟨(x, y), hm, rfl, rfl⟩

theorem unmark_mark (x y : Nat) (s : Seen) (hns : (x, y) ∉ s) :
    unmark x y (mark x y s) = s := by
  induction s with
  | nil => simp [mark, unmark]
  | cons p rest ih =>
    simp only [List.mem_cons, not_or] at hns
    simp only [mark, List.cons_append, unmark]
    rw [if_neg (fun hp => hns.1 hp.symm)]
    exact congrArg (p :: ·) (ih hns.2)

end Transis
namespace Transis

theorem run_zero (h : Heap) (seen : Seen) (c : Call) : run h 0 seen c = none := rfl

theorem run_cmp (h : Heap) (fuel : Nat) (seen : Seen) (a b : Value) :
    run h (fuel + 1) seen (.cmp a b) =
      (if jsStrictEq a b then some (.val true, seen)
       else
        match delegateOf h a with
        | some f => some (.val (f b), seen)
        | none =>
          match typeOf h a with
          | none => some (.thrown, seen)
          | some ta =>
            match typeOf h b with
            | none => some (.thrown, seen)
            | some tb =>
              if ta = tb then
                match ta with
                | .tboolean | .tstring | .tdate | .tnumber =>
                  some (.val (primEq (valueOfV h a) (valueOfV h b)), seen)
                | .tregexp => some (.val (regexpEq h a b), seen)
                | .tarray => run h fuel seen (.carr a b)
                | .tobject => run h fuel seen (.cobj a b)
                | _ => some (.val false, seen)
              else some (.val false, seen)) := rfl

theorem run_carr (h : Heap) (fuel : Nat) (seen : Seen) (a b : Value) :
    run h (fuel + 1) seen (.carr a b) =
      (match a, b with
       | .ref x, .ref y =>
         match h[x]?, h[y]? with
         | some (.arr as_), some (.arr bs) =>
           if as_.length = bs.length then
             if seenPair x y seen then some (.val true, seen)
             else
               match run h fuel (mark x y seen) (.celems as_ bs) with
               | none => none
               | some (r, s) => some (r, unmark x y s)
           else some (.val false, seen)
         | _, _ => some (.val false, seen)
       | _, _ => some (.val false, seen)) := rfl

theorem run_cobj (h : Heap) (fuel : Nat) (seen : Seen) (a b : Value) :
    run h (fuel + 1) seen (.cobj a b) =
      (match a, b with
       | .ref x, .ref y =>
         match ownFields h x, ownFields h y with
         | some fa, some fb =>
           if fa.length = fb.length then
             if seenPair x y seen then some (.val true, seen)
             else
               match run h fuel (mark x y seen) (.cfields fa b) with
               | none => none
               | some (r, s) => some (r, unmark x y s)
           else some (.val false, seen)
         | _, _ => some (.val false, seen)
       | _, _ => some (.val false, seen)) := rfl

theorem run_celems_nil (h : Heap) (fuel : Nat) (seen : Seen) (bs : List Value) :
    run h (fuel + 1) seen (.celems [] bs) = some (.val true, seen) := rfl

theorem run_celems_cons (h : Heap) (fuel : Nat) (seen : Seen) (x : Value)
    (rest bs : List Value) :
    run h (fuel + 1) seen (.celems (x :: rest) bs) =
      (match run h fuel seen (.cmp x (bs.headD .vundefined)) with
       | some (.val true, s) => run h fuel s (.celems rest bs.tail)
       | some (.val false, s) => some (.val false, s)
       | some (.thrown, s) => some (.thrown, s)
       | none => none) := rfl

theorem run_cfields_nil (h : Heap) (fuel : Nat) (seen : Seen) (b : Value) :
    run h (fuel + 1) seen (.cfields [] b) = some (.val true, seen) := rfl

theorem run_cfields_cons (h : Heap) (fuel : Nat) (seen : Seen) (key : String)
    (v : Value) (rest : List (String × Value)) (b : Value) :
    run h (fuel + 1) seen (.cfields ((key, v) :: rest) b) =
      (match hasOwn h b key with
       | none => some (.thrown, seen)
       | some false => some (.val false, seen)
       | some true =>
         match run h fuel seen (.cmp v (getMember h b key)) with
         | some (.val true, s) => run h fuel s (.cfields rest b)
         | some (.val false, s) => some (.val false, s)
         | some (.thrown, s) => some (.thrown, s)
         | none => none) := rfl

end Transis
namespace Transis

theorem run_carr_refs (h : Heap) (fuel : Nat) (seen : Seen) (x y : Nat) :
    run h (fuel + 1) seen (.carr (.ref x) (.ref y)) =
      (match h[x]?, h[y]? with
       | some (.arr as_), some (.arr bs) =>
         if as_.length = bs.length then
           if seenPair x y seen then some (.val true, seen)
           else
             match run h fuel (mark x y seen) (.celems as_ bs) with
             | none => none
             | some (r, s) => some (r, unmark x y s)
         else some (.val false, seen)
       | _, _ => some (.val false, seen)) := rfl

theorem run_cobj_refs (h : Heap) (fuel : Nat) (seen : Seen) (x y : Nat) :
    run h (fuel + 1) seen (.cobj (.ref x) (.ref y)) =
      (match ownFields h x, ownFields h y with
       | some fa, some fb =>
         if fa.length = fb.length then
           if seenPair x y seen then some (.val true, seen)
           else
             match run h fuel (mark x y seen) (.cfields fa (.ref y)) with
             | none => none
             | some (r, s) => some (r, unmark x y s)
         else some (.val false, seen)
       | _, _ => some (.val false, seen)) := rfl

end Transis
namespace Transis

theorem run_carr_arrs (h : Heap) (fuel : Nat) (seen : Seen) (x y : Nat)
    (as_ bs : List Value) (hga : h[x]? = some (.arr as_))
    (hgb : h[y]? = some (.arr bs)) :
    run h (fuel + 1) seen (.carr (.ref x) (.ref y)) =
      (if as_.length = bs.length then
         if seenPair x y seen then some (.val true, seen)
         else
           match run h fuel (mark x y seen) (.celems as_ bs) with
           | none => none
           | some (r, s) => some (r, unmark x y s)
       else some (.val false, seen)) := by
  rw [run_carr_refs, hga, hgb]

theorem run_cobj_fields (h : Heap) (fuel : Nat) (seen : Seen) (x y : Nat)
    (fa fb : List (String × Value)) (hfa : ownFields h x = some fa)
    (hfb : ownFields h y = some fb) :
    run h (fuel + 1) seen (.cobj (.ref x) (.ref y)) =
      (if fa.length = fb.length then
         if seenPair x y seen then some (.val true, seen)
         else
           match run h fuel (mark x y seen) (.cfields fa (.ref y)) with
           | none => none
           | some (r, s) => some (r, unmark x y s)
       else some (.val false, seen)) := by
  rw [run_cobj_refs, hfa, hfb]

end Transis
namespace Transis

/-- Guard preservation: whatever a call returns, the guard state it hands
back is exactly the one it was given — every `mark` is matched by the
`unmark` of the `finally`, on every exit path (true, early false, thrown). -/
theorem run_seen (h : Heap) (fuel : Nat) :
    ∀ (seen : Seen) (c : Call) (r : EvalR) (s : Seen),
      run h fuel seen c = some (r, s) → s = seen := by
  induction fuel with
  | zero => intro seen c r s hr; simp [run] at hr
  | succ fuel ih =>
    intro seen c r s hr
    cases c with
    | cmp a b =>
      simp only [run] at hr
      split at hr
      · simp only [Option.some.injEq, Prod.mk.injEq] at hr; exact hr.2.symm
      split at hr
      · simp only [Option.some.injEq, Prod.mk.injEq] at hr; exact hr.2.symm
      split at hr
      · simp only [Option.some.injEq, Prod.mk.injEq] at hr; exact hr.2.symm
      split at hr
      · simp only [Option.some.injEq, Prod.mk.injEq] at hr; exact hr.2.symm
      split at hr
      · split at hr
        all_goals try (simp only [Option.some.injEq, Prod.mk.injEq] at hr; exact hr.2.symm)
        · exact ih _ _ _ _ hr
        · exact ih _ _ _ _ hr
      · simp only [Option.some.injEq, Prod.mk.injEq] at hr; exact hr.2.symm
    | carr a b =>
      simp only [run] at hr
      split at hr
      · split at hr
        · split at hr
          · split at hr
            · simp only [Option.some.injEq, Prod.mk.injEq] at hr; exact hr.2.symm
            · split at hr
              · simp at hr
              · rename_i x y o1 o2 as0 bs0 hga hgb hlen hnsp xo r0 s0 heq
                simp only [Option.some.injEq, Prod.mk.injEq] at hr
                have hs0 := ih _ _ _ _ heq
                subst hs0
                rw [← hr.2]
                exact unmark_mark x y seen (fun hm => hnsp ((seenPair_iff x y seen).mpr hm))
          · simp only [Option.some.injEq, Prod.mk.injEq] at hr; exact hr.2.symm
        · simp only [Option.some.injEq, Prod.mk.injEq] at hr; exact hr.2.symm
      · simp only [Option.some.injEq, Prod.mk.injEq] at hr; exact hr.2.symm
    | cobj a b =>
      simp only [run] at hr
      split at hr
      · split at hr
        · split at hr
          · split at hr
            · simp only [Option.some.injEq, Prod.mk.injEq] at hr; exact hr.2.symm
            · split at hr
              · simp at hr
              · rename_i x y o1 o2 fa0 fb0 hga hgb hlen hnsp xo r0 s0 heq
                simp only [Option.some.injEq, Prod.mk.injEq] at hr
                have hs0 := ih _ _ _ _ heq
                subst hs0
                rw [← hr.2]
                exact unmark_mark x y seen (fun hm => hnsp ((seenPair_iff x y seen).mpr hm))
          · simp only [Option.some.injEq, Prod.mk.injEq] at hr; exact hr.2.symm
        · simp only [Option.some.injEq, Prod.mk.injEq] at hr; exact hr.2.symm
      · simp only [Option.some.injEq, Prod.mk.injEq] at hr; exact hr.2.symm
    | celems as_ bs =>
      simp only [run] at hr
      split at hr
      · simp only [Option.some.injEq, Prod.mk.injEq] at hr; exact hr.2.symm
      · split at hr
        · rename_i s0 heq
          have hs0 := ih _ _ _ _ heq
          subst hs0
          exact ih _ _ _ _ hr
        · rename_i s0 heq
          simp only [Option.some.injEq, Prod.mk.injEq] at hr
          rw [← hr.2]; exact ih _ _ _ _ heq
        · rename_i s0 heq
          simp only [Option.some.injEq, Prod.mk.injEq] at hr
          rw [← hr.2]; exact ih _ _ _ _ heq
        · simp at hr
    | cfields fa b =>
      simp only [run] at hr
      split at hr
      · simp only [Option.some.injEq, Prod.mk.injEq] at hr; exact hr.2.symm
      · split at hr
        · simp only [Option.some.injEq, Prod.mk.injEq] at hr; exact hr.2.symm
        · simp only [Option.some.injEq, Prod.mk.injEq] at hr; exact hr.2.symm
        · split at hr
          · rename_i s0 heq
            have hs0 := ih _ _ _ _ heq
            subst hs0
            exact ih _ _ _ _ hr
          · rename_i s0 heq
            simp only [Option.some.injEq, Prod.mk.injEq] at hr
            rw [← hr.2]; exact ih _ _ _ _ heq
          · rename_i s0 heq
            simp only [Option.some.injEq, Prod.mk.injEq] at hr
            rw [← hr.2]; exact ih _ _ _ _ heq
          · simp at hr

end Transis
namespace Transis

/-- Fuel monotonicity: a result obtained with some fuel is stable under
giving more fuel. -/
theorem run_mono_succ (h : Heap) (fuel : Nat) :
    ∀ (seen : Seen) (c : Call) (res : EvalR × Seen),
      run h fuel seen c = some res → run h (fuel + 1) seen c = some res := by
  induction fuel with
  | zero => intro seen c res hr; simp [run] at hr
  | succ fuel ih =>
    intro seen c res hr
    cases c with
    | cmp a b =>
      rw [run_cmp] at hr
      rw [run_cmp]
      split at hr
      · simp_all
      split at hr
      · simp_all
      split at hr
      · simp_all
      split at hr
      · simp_all
      split at hr
      · split at hr
        · simp_all
        · simp_all
        · simp_all
        · simp_all
        · simp_all
        · rename_i htag
          rw [if_neg (by assumption), if_pos htag]
          exact ih _ _ _ hr
        · rename_i htag
          rw [if_neg (by assumption), if_pos htag]
          exact ih _ _ _ hr
        · simp_all
      · simp_all
    | carr a b =>
      rw [run_carr] at hr
      rw [run_carr]
      split at hr
      · split at hr
        · split at hr
          · split at hr
            · simp_all
            · split at hr
              · simp at hr
              · rename_i x y o1 o2 as0 bs0 hga hgb hlen hnsp xo r0 s0 heq
                have h2 := ih _ _ _ heq
                rw [h2, if_pos hlen, if_neg hnsp]
                exact hr
          · simp_all
        · simp_all
      · simp_all
    | cobj a b =>
      rw [run_cobj] at hr
      rw [run_cobj]
      split at hr
      · split at hr
        · split at hr
          · split at hr
            · simp_all
            · split at hr
              · simp at hr
              · rename_i x y o1 o2 fa0 fb0 hga hgb hlen hnsp xo r0 s0 heq
                have h2 := ih _ _ _ heq
                rw [h2, if_pos hlen, if_neg hnsp]
                exact hr
          · simp_all
        · simp_all
      · simp_all
    | celems as_ bs =>
      cases as_ with
      | nil => rw [run_celems_nil] at hr; rw [run_celems_nil]; exact hr
      | cons x rest =>
        rw [run_celems_cons] at hr
        rw [run_celems_cons]
        split at hr
        · rename_i s0 heq
          rw [ih _ _ _ heq]
          exact ih _ _ _ hr
        · rename_i s0 heq
          rw [ih _ _ _ heq]
          exact hr
        · rename_i s0 heq
          rw [ih _ _ _ heq]
          exact hr
        · simp at hr
    | cfields fa b =>
      cases fa with
      | nil => rw [run_cfields_nil] at hr; rw [run_cfields_nil]; exact hr
      | cons kv rest =>
        cases kv with
        | mk key v =>
          rw [run_cfields_cons] at hr
          rw [run_cfields_cons]
          split at hr
          · simp_all
          · simp_all
          · split at hr
            · rename_i s0 heq
              rw [ih _ _ _ heq]
              exact ih _ _ _ hr
            · rename_i s0 heq
              rw [ih _ _ _ heq]
              exact hr
            · rename_i s0 heq
              rw [ih _ _ _ heq]
              exact hr
            · simp at hr

/-- Fuel monotonicity, general form. -/
theorem run_mono (h : Heap) (fuel fuel2 : Nat) (hle : fuel ≤ fuel2) :
    ∀ (seen : Seen) (c : Call) (res : EvalR × Seen),
      run h fuel seen c = some res → run h fuel2 seen c = some res := by
  induction fuel2 with
  | zero =>
    intro seen c res hr
    have : fuel = 0 := Nat.le_zero.mp hle
    subst this
    exact hr
  | succ fuel2 ih =>
    intro seen c res hr
    rcases Nat.lt_or_ge fuel (fuel2 + 1) with hlt | hge
    · exact run_mono_succ h fuel2 seen c res (ih (Nat.lt_succ_iff.mp hlt) seen c res hr)
    · have : fuel = fuel2 + 1 := Nat.le_antisymm hle hge
      subst this
      exact hr

end Transis
namespace Transis

theorem get?_lt {α : Type} (l : List α) (n : Nat) (a : α) (hg : l[n]? = some a) :
    n < l.length := by
  rcases List.getElem?_eq_some.mp hg with ⟨hlt, _⟩
  exact hlt

theorem size_le_maxNodeLen (h : Heap) (n : Node) (hn : n ∈ h) :
    n.size ≤ maxNodeLen h := by
  induction h with
  | nil => cases hn
  | cons m rest ih =>
    rcases List.mem_cons.mp hn with rfl | hmem
    · exact le_max_left _ _
    · exact le_trans (ih hmem) (le_max_right _ _)

theorem ownFields_spec (h : Heap) (x : Nat) (fa : List (String × Value))
    (hfa : ownFields h x = some fa) : x < h.length ∧ fa.length ≤ maxNodeLen h := by
  unfold ownFields at hfa
  split at hfa
  · rename_i hp fields hg
    cases hfa
    exact ⟨get?_lt _ _ _ hg,
      size_le_maxNodeLen h _ (List.getElem?_mem hg)⟩
  · rename_i oid fn fields hg
    cases hfa
    exact ⟨get?_lt _ _ _ hg,
      size_le_maxNodeLen h _ (List.getElem?_mem hg)⟩
  · cases hfa

theorem seen_length_le (h : Heap) (seen : Seen) (hnd : seen.Nodup)
    (hv : seenValid h seen) : seen.length ≤ h.length * h.length := by
  classical
  rw [← List.toFinset_card_of_nodup hnd]
  have hsub : seen.toFinset ⊆ (Finset.range h.length) ×ˢ (Finset.range h.length) := by
    intro p hp
    rw [List.mem_toFinset] at hp
    rcases hv p hp with ⟨h1, h2⟩
    simp [Finset.mem_product, Finset.mem_range, h1, h2]
  calc seen.toFinset.card
      ≤ ((Finset.range h.length) ×ˢ (Finset.range h.length)).card :=
        Finset.card_le_card hsub
    _ = h.length * h.length := by
        rw [Finset.card_product, Finset.card_range]

end Transis
namespace Transis

theorem callReq_cmp (h : Heap) (fuel : Nat) (seen : Seen) (a b : Value) :
    callReq h fuel seen (.cmp a b) ↔
      (maxNodeLen h + 3) * (h.length * h.length + 1 - seen.length) ≤ fuel := Iff.rfl

theorem callReq_carr (h : Heap) (fuel : Nat) (seen : Seen) (a b : Value) :
    callReq h fuel seen (.carr a b) ↔
      (maxNodeLen h + 3) * (h.length * h.length + 1 - seen.length) ≤ fuel + 1 := Iff.rfl

theorem callReq_cobj (h : Heap) (fuel : Nat) (seen : Seen) (a b : Value) :
    callReq h fuel seen (.cobj a b) ↔
      (maxNodeLen h + 3) * (h.length * h.length + 1 - seen.length) ≤ fuel + 1 := Iff.rfl

theorem callReq_celems (h : Heap) (fuel : Nat) (seen : Seen) (as_ bs : List Value) :
    callReq h fuel seen (.celems as_ bs) ↔
      as_.length + (maxNodeLen h + 3) * (h.length * h.length + 1 - seen.length) ≤ fuel := Iff.rfl

theorem callReq_cfields (h : Heap) (fuel : Nat) (seen : Seen)
    (fa : List (String × Value)) (b : Value) :
    callReq h fuel seen (.cfields fa b) ↔
      fa.length + (maxNodeLen h + 3) * (h.length * h.length + 1 - seen.length) ≤ fuel := Iff.rfl

theorem req_zero (M n2 s r : Nat) (hs : s ≤ n2)
    (hreq : (M + 3) * (n2 + 1 - s) ≤ r) (hr : r ≤ 1) : False := by
  have h1 : 1 ≤ n2 + 1 - s := by omega
  have h2 : (M + 3) * 1 ≤ (M + 3) * (n2 + 1 - s) := Nat.mul_le_mul_left _ h1
  omega

theorem req_into (M n2 s fuel L : Nat) (hL : L ≤ M) (hs : s ≤ n2)
    (hreq : (M + 3) * (n2 + 1 - s) ≤ fuel + 2) :
    L + (M + 3) * (n2 + 1 - (s + 1)) ≤ fuel := by
  have h1 : n2 + 1 - s = (n2 + 1 - (s + 1)) + 1 := by omega
  have h2 : (M + 3) * (n2 + 1 - s) = (M + 3) * (n2 + 1 - (s + 1)) + (M + 3) := by
    rw [h1, Nat.mul_succ]
  omega

theorem req_head (P fuel L : Nat) (hreq : L + 1 + P ≤ fuel + 1) : P ≤ fuel := by omega

theorem req_tail (P fuel L : Nat) (hreq : L + 1 + P ≤ fuel + 1) : L + P ≤ fuel := by omega

theorem mark_length (x y : Nat) (s : Seen) : (mark x y s).length = s.length + 1 := by
  simp [mark]

theorem mark_nodup (x y : Nat) (s : Seen) (hnd : s.Nodup) (hni : (x, y) ∉ s) :
    (mark x y s).Nodup := by
  rw [mark]
  exact List.Nodup.append hnd (List.nodup_singleton _) (by simpa using hni)

theorem mark_valid (h : Heap) (x y : Nat) (s : Seen) (hv : seenValid h s)
    (hx : x < h.length) (hy : y < h.length) : seenValid h (mark x y s) := by
  intro p hp
  rw [mark, List.mem_append] at hp
  rcases hp with hp | hp
  · exact hv p hp
  · simp at hp; subst hp; exact ⟨hx, hy⟩

end Transis
namespace Transis

/-- Totality: with the stated fuel requirement (satisfied by `fuelBound` at
the top level), the engine always produces a result — the recursion guard
bounds the depth of composite recursion by the number of address pairs. -/
theorem run_total (h : Heap) (fuel : Nat) :
    ∀ (seen : Seen) (c : Call), seen.Nodup → seenValid h seen →
      callReq h fuel seen c → (run h fuel seen c).isSome := by
  induction fuel with
  | zero =>
    intro seen c hnd hv hreq
    exfalso
    have hs := seen_length_le h seen hnd hv
    cases c with
    | cmp a b =>
      exact req_zero _ _ _ _ hs ((callReq_cmp h 0 seen a b).mp hreq) (by omega)
    | carr a b =>
      exact req_zero _ _ _ _ hs ((callReq_carr h 0 seen a b).mp hreq) (by omega)
    | cobj a b =>
      exact req_zero _ _ _ _ hs ((callReq_cobj h 0 seen a b).mp hreq) (by omega)
    | celems as_ bs =>
      have hq := (callReq_celems h 0 seen as_ bs).mp hreq
      exact req_zero _ _ _ _ hs (le_trans (Nat.le_add_left _ _) hq) (by omega)
    | cfields fa b =>
      have hq := (callReq_cfields h 0 seen fa b).mp hreq
      exact req_zero _ _ _ _ hs (le_trans (Nat.le_add_left _ _) hq) (by omega)
  | succ fuel ih =>
    intro seen c hnd hv hreq
    have hs := seen_length_le h seen hnd hv
    cases c with
    | cmp a b =>
      rw [run_cmp]
      split
      · simp
      split
      · simp
      split
      · simp
      split
      · simp
      split
      · split
        · simp
        · simp
        · simp
        · simp
        · simp
        · exact ih seen (.carr a b) hnd hv
            ((callReq_carr h fuel seen a b).mpr ((callReq_cmp h (fuel + 1) seen a b).mp hreq))
        · exact ih seen (.cobj a b) hnd hv
            ((callReq_cobj h fuel seen a b).mpr ((callReq_cmp h (fuel + 1) seen a b).mp hreq))
        · simp
      · simp
    | carr a b =>
      cases a
      case ref x =>
       cases b
       case ref y =>
        cases hga : h[x]? with
        | none => rw [run_carr_refs, hga]; simp
        | some na =>
          cases hgb : h[y]? with
          | none => rw [run_carr_refs, hga, hgb]; cases na <;> simp
          | some nb =>
            cases na
            case arr as0 =>
              cases nb
              case arr bs0 =>
                rw [run_carr_arrs h fuel seen x y as0 bs0 hga hgb]
                by_cases hlen : as0.length = bs0.length
                · rw [if_pos hlen]
                  by_cases hsp : seenPair x y seen
                  · rw [if_pos hsp]; simp
                  · rw [if_neg hsp]
                    have hx : x < h.length := get?_lt _ _ _ hga
                    have hy : y < h.length := get?_lt _ _ _ hgb
                    have hni : (x, y) ∉ seen := fun hm => hsp ((seenPair_iff x y seen).mpr hm)
                    have hnd2 := mark_nodup x y seen hnd hni
                    have hv2 := mark_valid h x y seen hv hx hy
                    have hlenle : as0.length ≤ maxNodeLen h :=
                      size_le_maxNodeLen h _ (List.getElem?_mem hga)
                    have hreq2 : callReq h fuel (mark x y seen) (.celems as0 bs0) := by
                      rw [callReq_celems, mark_length]
                      exact req_into (maxNodeLen h) (h.length * h.length) seen.length fuel
                        as0.length hlenle hs
                        (by have := (callReq_carr h (fuel + 1) seen (.ref x) (.ref y)).mp hreq
                            omega)
                    have hsome := ih (mark x y seen) (.celems as0 bs0) hnd2 hv2 hreq2
                    obtain ⟨⟨r0, s0⟩, hres⟩ := Option.isSome_iff_exists.mp hsome
                    rw [hres]
                    simp
                · rw [if_neg hlen]; simp
              all_goals (rw [run_carr_refs, hga, hgb]; simp)
            all_goals (rw [run_carr_refs, hga, hgb]; cases nb <;> simp)
       all_goals (rw [run_carr]; simp)
      all_goals (rw [run_carr]; simp)
    | cobj a b =>
      cases a
      case ref x =>
       cases b
       case ref y =>
        cases hfa : ownFields h x with
        | none => rw [run_cobj_refs, hfa]; simp
        | some fa =>
          cases hfb : ownFields h y with
          | none => rw [run_cobj_refs, hfa, hfb]; simp
          | some fb =>
            rw [run_cobj_fields h fuel seen x y fa fb hfa hfb]
            by_cases hlen : fa.length = fb.length
            · rw [if_pos hlen]
              by_cases hsp : seenPair x y seen
              · rw [if_pos hsp]; simp
              · rw [if_neg hsp]
                obtain ⟨hx, hfalen⟩ := ownFields_spec h x fa hfa
                obtain ⟨hy, hfblen⟩ := ownFields_spec h y fb hfb
                have hni : (x, y) ∉ seen := fun hm => hsp ((seenPair_iff x y seen).mpr hm)
                have hnd2 := mark_nodup x y seen hnd hni
                have hv2 := mark_valid h x y seen hv hx hy
                have hreq2 : callReq h fuel (mark x y seen) (.cfields fa (.ref y)) := by
                  rw [callReq_cfields, mark_length]
                  exact req_into (maxNodeLen h) (h.length * h.length) seen.length fuel
                    fa.length hfalen hs
                    (by have := (callReq_cobj h (fuel + 1) seen (.ref x) (.ref y)).mp hreq
                        omega)
                have hsome := ih (mark x y seen) (.cfields fa (.ref y)) hnd2 hv2 hreq2
                obtain ⟨⟨r0, s0⟩, hres⟩ := Option.isSome_iff_exists.mp hsome
                rw [hres]
                simp
            · rw [if_neg hlen]; simp
       all_goals (rw [run_cobj]; simp)
      all_goals (rw [run_cobj]; simp)
    | celems as_ bs =>
      cases as_ with
      | nil => rw [run_celems_nil]; simp
      | cons x rest =>
        rw [run_celems_cons]
        have hreqL := (callReq_celems h (fuel + 1) seen (x :: rest) bs).mp hreq
        simp only [List.length_cons] at hreqL
        have hreqc : callReq h fuel seen (.cmp x (bs.headD .vundefined)) := by
          rw [callReq_cmp]
          exact req_head _ _ _ hreqL
        have hsome := ih seen _ hnd hv hreqc
        obtain ⟨⟨r0, s0⟩, hres⟩ := Option.isSome_iff_exists.mp hsome
        have hs0 : s0 = seen := run_seen h fuel seen _ r0 s0 hres
        rw [hs0] at hres
        rw [hres]
        cases r0 with
        | thrown => simp
        | val bv =>
          cases bv
          · simp
          · have hreqt : callReq h fuel seen (.celems rest bs.tail) := by
              rw [callReq_celems]
              exact req_tail _ _ _ hreqL
            exact ih seen _ hnd hv hreqt
    | cfields fa b =>
      cases fa with
      | nil => rw [run_cfields_nil]; simp
      | cons kv rest =>
        obtain ⟨key, v⟩ := kv
        rw [run_cfields_cons]
        have hreqL := (callReq_cfields h (fuel + 1) seen ((key, v) :: rest) b).mp hreq
        simp only [List.length_cons] at hreqL
        cases hho : hasOwn h b key with
        | none => simp
        | some bo =>
          cases bo
          · simp
          · have hreqc : callReq h fuel seen (.cmp v (getMember h b key)) := by
              rw [callReq_cmp]
              exact req_head _ _ _ hreqL
            have hsome := ih seen _ hnd hv hreqc
            obtain ⟨⟨r0, s0⟩, hres⟩ := Option.isSome_iff_exists.mp hsome
            have hs0 : s0 = seen := run_seen h fuel seen _ r0 s0 hres
            rw [hs0] at hres
            rw [hres]
            cases r0 with
            | thrown => simp
            | val bv =>
              cases bv
              · simp
              · have hreqt : callReq h fuel seen (.cfields rest b) := by
                  rw [callReq_cfields]
                  exact req_tail _ _ _ hreqL
                exact ih seen _ hnd hv hreqt

end Transis
namespace Transis

theorem protoOK_typeOf (h : Heap) (hp : protoOKB h = true) (v : Value) :
    (typeOf h v).isSome := by
  cases v <;> simp [typeOf]
  rename_i a
  cases hg : h[a]? with
  | none => simp
  | some n =>
    cases n
    case obj hasP fields =>
      have hmem := List.getElem?_mem hg
      have hall := List.all_eq_true.mp hp _ hmem
      simp at hall
      subst hall
      cases hcf : hasField fields "callee" <;> simp [hcf]
    all_goals simp
    case transis oid fn fields =>
      cases hcf : hasField fields "callee" <;> simp [hcf]

theorem protoOK_hasOwn (h : Heap) (hp : protoOKB h = true) (b : Value) (key : String) :
    (hasOwn h b key).isSome := by
  cases b <;> simp [hasOwn]
  rename_i y
  cases hg : h[y]? with
  | none => simp
  | some n =>
    cases n
    case obj hasP fields =>
      have hmem := List.getElem?_mem hg
      have hall := List.all_eq_true.mp hp _ hmem
      simp at hall
      subst hall
      simp
    all_goals simp

/-- Under `protoOKB` no TypeError can arise, so the engine never returns the
thrown outcome. -/
theorem run_noThrow (h : Heap) (hp : protoOKB h = true) (fuel : Nat) :
    ∀ (seen : Seen) (c : Call) (r : EvalR) (s : Seen),
      run h fuel seen c = some (r, s) → r ≠ .thrown := by
  induction fuel with
  | zero => intro seen c r s hr; simp [run] at hr
  | succ fuel ih =>
    intro seen c r s hr
    cases c with
    | cmp a b =>
      simp only [run] at hr
      split at hr
      · simp only [Option.some.injEq, Prod.mk.injEq] at hr; rw [← hr.1]; simp
      split at hr
      · simp only [Option.some.injEq, Prod.mk.injEq] at hr; rw [← hr.1]; simp
      split at hr
      · rename_i heqa
        have hsome := protoOK_typeOf h hp a
        rw [heqa] at hsome
        simp at hsome
      split at hr
      · rename_i heqb
        have hsome := protoOK_typeOf h hp b
        rw [heqb] at hsome
        simp at hsome
      split at hr
      · split at hr
        · simp only [Option.some.injEq, Prod.mk.injEq] at hr; rw [← hr.1]; simp
        · simp only [Option.some.injEq, Prod.mk.injEq] at hr; rw [← hr.1]; simp
        · simp only [Option.some.injEq, Prod.mk.injEq] at hr; rw [← hr.1]; simp
        · simp only [Option.some.injEq, Prod.mk.injEq] at hr; rw [← hr.1]; simp
        · simp only [Option.some.injEq, Prod.mk.injEq] at hr; rw [← hr.1]; simp
        · exact ih _ _ _ _ hr
        · exact ih _ _ _ _ hr
        · simp only [Option.some.injEq, Prod.mk.injEq] at hr; rw [← hr.1]; simp
      · simp only [Option.some.injEq, Prod.mk.injEq] at hr; rw [← hr.1]; simp
    | carr a b =>
      simp only [run] at hr
      split at hr
      · split at hr
        · split at hr
          · split at hr
            · simp only [Option.some.injEq, Prod.mk.injEq] at hr; rw [← hr.1]; simp
            · split at hr
              · simp at hr
              · rename_i r0 s0 heq
                simp only [Option.some.injEq, Prod.mk.injEq] at hr
                rw [← hr.1]
                exact ih _ _ _ _ heq
          · simp only [Option.some.injEq, Prod.mk.injEq] at hr; rw [← hr.1]; simp
        · simp only [Option.some.injEq, Prod.mk.injEq] at hr; rw [← hr.1]; simp
      · simp only [Option.some.injEq, Prod.mk.injEq] at hr; rw [← hr.1]; simp
    | cobj a b =>
      simp only [run] at hr
      split at hr
      · split at hr
        · split at hr
          · split at hr
            · simp only [Option.some.injEq, Prod.mk.injEq] at hr; rw [← hr.1]; simp
            · split at hr
              · simp at hr
              · rename_i r0 s0 heq
                simp only [Option.some.injEq, Prod.mk.injEq] at hr
                rw [← hr.1]
                exact ih _ _ _ _ heq
          · simp only [Option.some.injEq, Prod.mk.injEq] at hr; rw [← hr.1]; simp
        · simp only [Option.some.injEq, Prod.mk.injEq] at hr; rw [← hr.1]; simp
      · simp only [Option.some.injEq, Prod.mk.injEq] at hr; rw [← hr.1]; simp
    | celems as_ bs =>
      simp only [run] at hr
      split at hr
      · simp only [Option.some.injEq, Prod.mk.injEq] at hr; rw [← hr.1]; simp
      · split at hr
        · exact ih _ _ _ _ hr
        · rename_i s0 heq
          simp only [Option.some.injEq, Prod.mk.injEq] at hr; rw [← hr.1]; simp
        · rename_i s0 heq
          exfalso
          exact ih _ _ _ _ heq rfl
        · simp at hr
    | cfields fa b =>
      simp only [run] at hr
      split at hr
      · simp only [Option.some.injEq, Prod.mk.injEq] at hr; rw [← hr.1]; simp
      · split at hr
        · rename_i kk vv rr scrut heqown
          have hsome := protoOK_hasOwn h hp b kk
          rw [heqown] at hsome
          simp at hsome
        · simp only [Option.some.injEq, Prod.mk.injEq] at hr; rw [← hr.1]; simp
        · split at hr
          · exact ih _ _ _ _ hr
          · rename_i s0 heq
            simp only [Option.some.injEq, Prod.mk.injEq] at hr; rw [← hr.1]; simp
          · rename_i s0 heq
            exfalso
            exact ih _ _ _ _ heq rfl
          · simp at hr

end Transis
namespace Transis

theorem run_det (h : Heap) (f1 f2 : Nat) (seen : Seen) (c : Call)
    (r1 r2 : EvalR × Seen) (h1 : run h f1 seen c = some r1)
    (h2 : run h f2 seen c = some r2) : r1 = r2 := by
  have g1 := run_mono h f1 (max f1 f2) (le_max_left _ _) seen c r1 h1
  have g2 := run_mono h f2 (max f1 f2) (le_max_right _ _) seen c r2 h2
  rw [g1] at g2
  exact Option.some.inj g2

theorem fuelBound_pos (h : Heap) : 1 ≤ fuelBound h := by
  unfold fuelBound
  have := Nat.mul_le_mul (show 1 ≤ maxNodeLen h + 3 by omega)
    (show 1 ≤ h.length * h.length + 1 by omega)
  omega

theorem fuelBound_succ (h : Heap) : ∃ F, fuelBound h = F + 1 :=
  ⟨fuelBound h - 1, by have := fuelBound_pos h; omega⟩

theorem callReq_top (h : Heap) (a b : Value) :
    callReq h (fuelBound h) [] (.cmp a b) := by
  rw [callReq_cmp]
  simp [fuelBound]

theorem seenValid_nil (h : Heap) : seenValid h [] := by
  intro p hp
  cases hp

theorem equals_isSome (h : Heap) (a b : Value) : (equals h a b).isSome :=
  run_total h (fuelBound h) [] (.cmp a b) List.nodup_nil (seenValid_nil h)
    (callReq_top h a b)

end Transis
namespace Transis

/-- C1: for independently built self-referential arrays a = [1, a] and
b = [1, b] (heap addresses 0 and 1), equals(a, b) is true: the pair enters
the guard, the cyclic back-edge comparison finds the pair already marked
and yields true without recursing (shown explicitly by the second
conjunct, where the pair is pre-marked), while a divergent non-cyclic
element (1 vs 2 in the third conjunct) still makes the result false. -/
theorem c1_self_referential_arrays :
    equals [.arr [.num 1, .ref 0], .arr [.num 1, .ref 1]] (.ref 0) (.ref 1) =
      some (.val true, []) ∧
    run [.arr [.num 1, .ref 0], .arr [.num 1, .ref 1]] 25 [(0, 1)]
      (.cmp (.ref 0) (.ref 1)) = some (.val true, [(0, 1)]) ∧
    equals [.arr [.num 1, .ref 0], .arr [.num 2, .ref 1]] (.ref 0) (.ref 1) =
      some (.val false, []) := by
  refine ⟨by decide, by decide, by decide⟩

/-- C2 (amended): every top-level equals call terminates — the guard bounds
composite recursion, and the concrete budget `fuelBound` always produces a
result; the result is a boolean whenever the heap has no prototype-less
plain object, otherwise the classifier's TypeError propagates (still a
terminating outcome, but not a boolean — see the counterexample). -/
theorem c2_equals_terminates (h : Heap) (a b : Value) :
    (equals h a b).isSome ∧
    (protoOKB h = true → ∃ bv : Bool, equals h a b = some (.val bv, [])) := by
  refine ⟨equals_isSome h a b, ?_⟩
  intro hp
  obtain ⟨⟨r, s⟩, hr⟩ := Option.isSome_iff_exists.mp (equals_isSome h a b)
  have hr2 : run h (fuelBound h) [] (.cmp a b) = some (r, s) := hr
  have hseen := run_seen h (fuelBound h) [] _ r s hr2
  subst hseen
  have hnt := run_noThrow h hp (fuelBound h) [] _ r [] hr2
  cases r with
  | thrown => exact absurd rfl hnt
  | val bv => exact ⟨bv, hr⟩

theorem c2_witness :
    ∃ bv : Bool,
      equals [.arr [.num 1, .ref 0]] (.ref 0) (.num 2) = some (.val bv, []) :=
  (c2_equals_terminates [.arr [.num 1, .ref 0]] (.ref 0) (.num 2)).2 (by decide)

/-- C2 counterexample: on a prototype-less plain object the classifier's
TypeError propagates out of equals, so this call terminates with the thrown
outcome and does not return a boolean, refuting the claim as stated. -/
theorem c2_counterexample :
    equals [.obj false []] (.ref 0) (.num 1) = some (.thrown, []) ∧
    (∀ bv : Bool, EvalR.thrown ≠ EvalR.val bv) := by
  refine ⟨by decide, by decide⟩

/-- C3: the recursion-guard lifecycle.  Whatever guard state a call is
started with, any result it produces hands back exactly that state (every
mark is unmarked on every exit path, a propagating error included — the
result type covers the thrown outcome); in particular a top-level equals
call ends with the guard empty again; and marking a pair that the guard
check just reported unseen never creates a duplicate pair. -/
theorem c3_guard_lifecycle (h : Heap) (fuel : Nat) (seen : Seen) (c : Call) :
    ((run h fuel seen c).isSome →
      ∃ r, run h fuel seen c = some (r, seen)) ∧
    (∀ a b : Value, (equals h a b).isSome →
      ∃ r, equals h a b = some (r, [])) ∧
    (∀ x y : Nat, seenPair x y seen = false → seen.Nodup →
      (mark x y seen).Nodup) := by
  refine ⟨?_, ?_, ?_⟩
  · intro hs
    obtain ⟨⟨r, s⟩, hr⟩ := Option.isSome_iff_exists.mp hs
    have := run_seen h fuel seen c r s hr
    subst this
    exact ⟨r, hr⟩
  · intro a b hs
    obtain ⟨⟨r, s⟩, hr⟩ := Option.isSome_iff_exists.mp hs
    have hr2 : run h (fuelBound h) [] (.cmp a b) = some (r, s) := hr
    have := run_seen h (fuelBound h) [] _ r s hr2
    subst this
    exact ⟨r, hr⟩
  · intro x y hsp hnd
    exact mark_nodup x y seen hnd
      (fun hm => by rw [(seenPair_iff x y seen).mpr hm] at hsp; cases hsp)

theorem c3_witness :
    (∃ r, run [.arr [.num 1, .ref 0], .arr [.num 1, .ref 1]] 25 [(5, 6)]
      (.cmp (.ref 0) (.ref 1)) = some (r, [(5, 6)])) ∧
    (∃ r, equals [.arr [.num 1, .ref 0], .arr [.num 1, .ref 1]]
      (.ref 0) (.ref 1) = some (r, [])) :=
  ⟨(c3_guard_lifecycle [.arr [.num 1, .ref 0], .arr [.num 1, .ref 1]] 25
      [(5, 6)] (.cmp (.ref 0) (.ref 1))).1 (by decide),
   (c3_guard_lifecycle [.arr [.num 1, .ref 0], .arr [.num 1, .ref 1]] 0 []
      (.cmp .vnull .vnull)).2.1 (.ref 0) (.ref 1) (by decide)⟩

/-- C4: the claim says classify and equals never raise, naming objects with
no prototype; but on `Object.create(null)` (modelled by an `obj` node with
`hasProto = false`) the classifier evaluates `o.hasOwnProperty('callee')`
and throws a TypeError (`typeOf` = none), and equals propagates it (the
thrown outcome), so both operations do raise — the code contradicts the
spec's explicit totality contract. -/
theorem c4_protoless_throws :
    typeOf [.obj false []] (.ref 0) = none ∧
    equals [.obj false []] (.num 0) (.ref 0) = some (.thrown, []) := by
  refine ⟨by decide, by decide⟩

end Transis
namespace Transis

/-- C8: the not-a-number sentinel is classified to its own tag `tNaN`
(the self-inequality check precedes the numeric cases), that tag is
disjoint from `tnumber`, equals(nan, nan) is false (the dispatch has no
NaN case and falls to the default false), and equals(nan, x) is false for
every number-classified x — a boxed NaN instance included. -/
theorem c8_nan_semantics (h : Heap) (v : Value) :
    typeOf h .nan = some .tNaN ∧
    Tag.tNaN ≠ Tag.tnumber ∧
    equals h .nan .nan = some (.val false, []) ∧
    (typeOf h v = some .tnumber → equals h .nan v = some (.val false, [])) := by
  obtain ⟨F, hF⟩ := fuelBound_succ h
  refine ⟨rfl, by decide, ?_, ?_⟩
  · simp only [equals, eq]
    rw [hF]
    rfl
  · intro htv
    simp only [equals, eq]
    rw [hF, run_cmp]
    have h1 : jsStrictEq Value.nan v = false := by cases v <;> rfl
    simp [h1, show delegateOf h Value.nan = none from rfl,
      show typeOf h Value.nan = some Tag.tNaN from rfl, htv]

theorem c8_witness :
    typeOf [.boxNum none] (.ref 0) = some .tnumber ∧
    equals [.boxNum none] .nan (.ref 0) = some (.val false, []) :=
  ⟨by decide, (c8_nan_semantics [.boxNum none] (.ref 0)).2.2.2 (by decide)⟩

/-- C9: the exported arrayEq returns false whenever at least one argument
is not an array — identical or deeply equal non-array arguments included —
because `Array.isArray` is checked on both arguments first. -/
theorem c9_arrayEq_requires_arrays (h : Heap) (fuel : Nat) (seen : Seen)
    (a b : Value) (hna : isArrayB h a = false ∨ isArrayB h b = false) :
    arrayEq h (fuel + 1) seen a b = some (.val false, seen) := by
  simp only [arrayEq]
  cases a
  case ref x =>
    cases b
    case ref y =>
      rw [run_carr_refs]
      rcases hna with hna | hna
      · cases hg : h[x]? with
        | none => rfl
        | some n =>
          cases n <;> first
            | rfl
            | (exfalso; simp [isArrayB, hg] at hna)
      · cases hg : h[x]? with
        | none => rfl
        | some n =>
          cases n <;> try rfl
          rename_i es
          cases hg2 : h[y]? with
          | none => rfl
          | some m =>
            cases m <;> first
              | rfl
              | (exfalso; simp [isArrayB, hg2] at hna)
    all_goals rw [run_carr]
  all_goals rw [run_carr]

theorem c9_witness :
    arrayEq [.obj true [("k", .num 1)]] 1 [] (.ref 0) (.ref 0) =
      some (.val false, []) :=
  c9_arrayEq_requires_arrays [.obj true [("k", .num 1)]] 0 [] (.ref 0) (.ref 0)
    (Or.inl (by decide))

/-- C10: two distinct Date objects with a NaN time value (invalid dates)
are never equal — the date rule compares `valueOf()` results with strict
equality and NaN is unequal to itself — while each such Date equals itself
through the identity short-circuit. -/
theorem c10_invalid_dates (h : Heap) (x y : Nat)
    (hx : h[x]? = some (.date none)) (hy : h[y]? = some (.date none)) :
    (x ≠ y → equals h (.ref x) (.ref y) = some (.val false, [])) ∧
    equals h (.ref x) (.ref x) = some (.val true, []) := by
  obtain ⟨F, hF⟩ := fuelBound_succ h
  constructor
  · intro hxy
    simp only [equals, eq]
    rw [hF, run_cmp]
    have hsne : jsStrictEq (.ref x) (.ref y) = false := by
      simp [jsStrictEq, hxy]
    rw [hsne]
    simp [delegateOf, typeOf, valueOfV, primEq, hx, hy]
  · simp only [equals, eq]
    rw [hF, run_cmp]
    have hseq : jsStrictEq (.ref x) (.ref x) = true := by
      simp [jsStrictEq]
    rw [hseq]
    simp

theorem c10_witness :
    equals [.date none, .date none] (.ref 0) (.ref 1) = some (.val false, []) ∧
    equals [.date none, .date none] (.ref 0) (.ref 0) = some (.val true, []) :=
  ⟨(c10_invalid_dates [.date none, .date none] 0 1 rfl rfl).1 (by decide),
   (c10_invalid_dates [.date none, .date none] 0 1 rfl rfl).2⟩

end Transis
namespace Transis

/-- C6 (amended): for two compiled patterns, equals is true iff the source
text and the global, multiline and ignoreCase flags agree; the sticky and
unicode flags are not read by the comparison (see the counterexample, where
they differ and equals is still true), contrary to the claim's demand that
all recognized flag bits match. -/
theorem c6_regexp_flags (h : Heap) (x y : Nat) (s1 s2 : String)
    (g1 m1 i1 st1 u1 g2 m2 i2 st2 u2 : Bool)
    (hx : h[x]? = some (.regexp s1 g1 m1 i1 st1 u1))
    (hy : h[y]? = some (.regexp s2 g2 m2 i2 st2 u2)) :
    equals h (.ref x) (.ref y) = some (.val true, []) ↔
      (s1 = s2 ∧ g1 = g2 ∧ m1 = m2 ∧ i1 = i2) := by
  obtain ⟨F, hF⟩ := fuelBound_succ h
  by_cases hxy : x = y
  · subst hxy
    rw [hx] at hy
    injection hy with hy2
    injection hy2 with e1 e2 e3 e4 e5 e6
    constructor
    · intro _
      exact ⟨e1, e2, e3, e4⟩
    · intro _
      simp only [equals, eq]
      rw [hF, run_cmp]
      have hseq : jsStrictEq (.ref x) (.ref x) = true := by simp [jsStrictEq]
      rw [hseq]
      simp
  · simp only [equals, eq]
    rw [hF, run_cmp]
    have hsne : jsStrictEq (.ref x) (.ref y) = false := by simp [jsStrictEq, hxy]
    rw [hsne]
    simp [delegateOf, typeOf, regexpEq, hx, hy]
    tauto

theorem c6_witness :
    equals [.regexp "a" true false false false false,
            .regexp "b" true false false false false] (.ref 0) (.ref 1) =
        some (.val true, []) ↔
      ("a" = "b" ∧ true = true ∧ false = false ∧ false = false) :=
  c6_regexp_flags [.regexp "a" true false false false false,
    .regexp "b" true false false false false] 0 1 "a" "b"
    true false false false false true false false false false rfl rfl

/-- C6 counterexample: two distinct compiled patterns with the same source
and same global/multiline/ignoreCase flags but a differing unicode flag
(shown by the second and third conjuncts) are reported equal, refuting the
claim that all recognized flag bits must match exactly. -/
theorem c6_counterexample :
    equals [.regexp "a" false false false false false,
            .regexp "a" false false false false true] (.ref 0) (.ref 1) =
      some (.val true, []) ∧
    ([.regexp "a" false false false false false,
      .regexp "a" false false false false true] : Heap)[0]? =
      some (.regexp "a" false false false false false) ∧
    ([.regexp "a" false false false false false,
      .regexp "a" false false false false true] : Heap)[1]? =
      some (.regexp "a" false false false false true) := by
  refine ⟨by decide, rfl, rfl⟩

end Transis
namespace Transis

theorem Runs_det (h : Heap) (seen : Seen) (c : Call) (res1 res2 : EvalR × Seen)
    (h1 : Runs h seen c res1) (h2 : Runs h seen c res2) : res1 = res2 := by
  obtain ⟨f1, h1⟩ := h1
  obtain ⟨f2, h2⟩ := h2
  exact run_det h f1 f2 seen c res1 res2 h1 h2

theorem getD_zero (l : List Value) (d : Value) : l.getD 0 d = l.headD d := by
  cases l <;> rfl

theorem getD_tail (l : List Value) (i : Nat) (d : Value) :
    l.tail.getD i d = l.getD (i + 1) d := by
  cases l <;> rfl

/-- Characterization of the element loop: it reports true exactly when every
aligned element comparison (with the out-of-range `undefined` read on the
right) reports true, each from the same guard state. -/
theorem celems_true_iff (h : Heap) (seen : Seen) :
    ∀ (as_ bs : List Value),
      Runs h seen (.celems as_ bs) (.val true, seen) ↔
        ∀ i < as_.length,
          Runs h seen (.cmp (as_.getD i .vundefined) (bs.getD i .vundefined))
            (.val true, seen) := by
  intro as_
  induction as_ with
  | nil =>
    intro bs
    constructor
    · intro _ i hi
      cases hi
    · intro _
      exact ⟨1, run_celems_nil h 0 seen bs⟩
  | cons x rest ih =>
    intro bs
    constructor
    · rintro ⟨fuel, hrun⟩
      cases fuel with
      | zero => simp [run] at hrun
      | succ fuel =>
        rw [run_celems_cons] at hrun
        split at hrun
        · rename_i s0 heq
          have hs0 := run_seen h fuel seen _ _ s0 heq
          subst hs0
          have htail := (ih bs.tail).mp ⟨fuel, hrun⟩
          intro i hi
          cases i with
          | zero =>
            rw [show (x :: rest).getD 0 Value.vundefined = x from rfl,
              getD_zero bs Value.vundefined]
            exact ⟨fuel, heq⟩
          | succ i =>
            simp only [List.getD_cons_succ]
            rw [← getD_tail]
            exact htail i (by simpa using hi)
        · rename_i s0 heq
          simp at hrun
        · rename_i s0 heq
          simp at hrun
        · simp at hrun
    · intro hall
      obtain ⟨f1, h1⟩ := by
        have h0 := hall 0 (by simp)
        rw [show (x :: rest).getD 0 Value.vundefined = x from rfl,
          getD_zero bs Value.vundefined] at h0
        exact h0
      obtain ⟨f2, h2⟩ := (ih bs.tail).mpr (by
        intro i hi
        rw [getD_tail]
        have := hall (i + 1) (by simpa using hi)
        simpa using this)
      refine ⟨max f1 f2 + 1, ?_⟩
      rw [run_celems_cons]
      rw [run_mono h f1 (max f1 f2) (le_max_left _ _) seen _ _ h1]
      exact run_mono h f2 (max f1 f2) (le_max_right _ _) seen _ _ h2

theorem unmark_head (x y : Nat) (s : Seen) : unmark x y ((x, y) :: s) = s := by
  simp [unmark]

theorem mark_nil (x y : Nat) : mark x y [] = [(x, y)] := rfl

theorem fuelBound_ge3 (h : Heap) : 3 ≤ fuelBound h := by
  unfold fuelBound
  have := Nat.mul_le_mul (show 3 ≤ maxNodeLen h + 3 by omega)
    (show 1 ≤ h.length * h.length + 1 by omega)
  omega

end Transis
namespace Transis

/-- C5 (amended): for two distinct references both classified `array`,
equals is true iff the lengths agree and every aligned pair of elements
compares deeply equal (each element comparison running with the pair in
the recursion guard, which is how the engine actually recurses); but for
two distinct references both classified `ordered-parameter-list`
(arguments objects) equals is always false — the dispatch switch has no
`arguments` case and falls to the default — so such containers are equal
only when they are the identical reference, contrary to the claim. -/
theorem c5_array_vs_arguments (h : Heap) (x y : Nat) :
    (∀ as_ bs : List Value, h[x]? = some (.arr as_) → h[y]? = some (.arr bs) →
      x ≠ y →
      (equals h (.ref x) (.ref y) = some (.val true, []) ↔
        (as_.length = bs.length ∧
         ∀ i < as_.length,
           run h (fuelBound h) [(x, y)]
             (.cmp (as_.getD i .vundefined) (bs.getD i .vundefined)) =
             some (.val true, [(x, y)])))) ∧
    (∀ es1 es2 : List Value, h[x]? = some (.args es1) →
      h[y]? = some (.args es2) → x ≠ y →
      equals h (.ref x) (.ref y) = some (.val false, [])) := by
  obtain ⟨F2, hF⟩ : ∃ F2, fuelBound h = F2 + 2 :=
    ⟨fuelBound h - 2, by have := fuelBound_ge3 h; omega⟩
  constructor
  · intro as_ bs hx hy hxy
    have hsne : jsStrictEq (.ref x) (.ref y) = false := by simp [jsStrictEq, hxy]
    have hdel : delegateOf h (.ref x) = none := by simp [delegateOf, hx]
    have htx : typeOf h (.ref x) = some .tarray := by simp [typeOf, hx]
    have hty : typeOf h (.ref y) = some .tarray := by simp [typeOf, hy]
    have hstep : equals h (.ref x) (.ref y) =
        run h (F2 + 1) [] (.carr (.ref x) (.ref y)) := by
      simp only [equals, eq]
      rw [hF, show F2 + 2 = (F2 + 1) + 1 from rfl, run_cmp, hsne]
      simp [hdel, htx, hty]
    rw [hstep, run_carr_arrs h F2 [] x y as_ bs hx hy]
    by_cases hlen : as_.length = bs.length
    · rw [if_pos hlen, if_neg (by simp [seenPair]), mark_nil]
      have hvx : x < h.length := get?_lt _ _ _ hx
      have hvy : y < h.length := get?_lt _ _ _ hy
      have hnd1 : ([(x, y)] : Seen).Nodup := by simp
      have hv1 : seenValid h [(x, y)] := by
        intro p hp
        simp at hp
        subst hp
        exact ⟨hvx, hvy⟩
      have hlenle : as_.length ≤ maxNodeLen h :=
        size_le_maxNodeLen h _ (List.getElem?_mem hx)
      have hreqE : callReq h F2 [(x, y)] (.celems as_ bs) := by
        rw [callReq_celems]
        simp only [List.length_cons, List.length_nil, Nat.add_sub_cancel]
        have hexp : (maxNodeLen h + 3) * (h.length * h.length + 1) =
            (maxNodeLen h + 3) * (h.length * h.length) + (maxNodeLen h + 3) := by
          ring
        have hFB := hF
        unfold fuelBound at hFB
        omega
      obtain ⟨⟨rc, sc⟩, hc⟩ :=
        Option.isSome_iff_exists.mp (run_total h F2 [(x, y)] _ hnd1 hv1 hreqE)
      have hsc := run_seen h F2 [(x, y)] _ rc sc hc
      subst hsc
      rw [hc]
      show (some (rc, unmark x y [(x, y)]) = some (.val true, [])) ↔ _
      rw [unmark_head]
      constructor
      · intro hval
        simp only [Option.some.injEq, Prod.mk.injEq] at hval
        refine ⟨hlen, ?_⟩
        have hRuns : Runs h [(x, y)] (.celems as_ bs) (.val true, [(x, y)]) :=
          ⟨F2, by rw [hc, hval.1]⟩
        have hchar := (celems_true_iff h [(x, y)] as_ bs).mp hRuns
        intro i hi
        have hreqi : callReq h (fuelBound h) [(x, y)]
            (.cmp (as_.getD i .vundefined) (bs.getD i .vundefined)) := by
          rw [callReq_cmp]
          simp only [List.length_cons, List.length_nil, Nat.add_sub_cancel]
          unfold fuelBound
          exact Nat.mul_le_mul_left _ (by omega)
        obtain ⟨resi, hresi⟩ := Option.isSome_iff_exists.mp
          (run_total h (fuelBound h) [(x, y)] _ hnd1 hv1 hreqi)
        have hdet := Runs_det h [(x, y)] _ _ _ ⟨fuelBound h, hresi⟩ (hchar i hi)
        rw [hresi, hdet]
      · rintro ⟨_, hall⟩
        have hRuns : Runs h [(x, y)] (.celems as_ bs) (.val true, [(x, y)]) :=
          (celems_true_iff h [(x, y)] as_ bs).mpr
            (fun i hi => ⟨fuelBound h, hall i hi⟩)
        have hdet := Runs_det h [(x, y)] _ _ _ ⟨F2, hc⟩ hRuns
        simp only [Prod.mk.injEq] at hdet
        rw [hdet.1]
    · rw [if_neg hlen]
      constructor
      · intro hcon
        simp at hcon
      · rintro ⟨hl, _⟩
        exact absurd hl hlen
  · intro es1 es2 hx hy hxy
    have hsne : jsStrictEq (.ref x) (.ref y) = false := by simp [jsStrictEq, hxy]
    have hdel : delegateOf h (.ref x) = none := by simp [delegateOf, hx]
    have htx : typeOf h (.ref x) = some .targuments := by simp [typeOf, hx]
    have hty : typeOf h (.ref y) = some .targuments := by simp [typeOf, hy]
    simp only [equals, eq]
    rw [hF, show F2 + 2 = (F2 + 1) + 1 from rfl, run_cmp, hsne]
    simp [hdel, htx, hty]

theorem c5_witness :
    (equals [.arr [.num 1], .arr [.num 1]] (.ref 0) (.ref 1) =
        some (.val true, []) ↔
      (([.num 1] : List Value).length = ([.num 1] : List Value).length ∧
       ∀ i < ([.num 1] : List Value).length,
         run [.arr [.num 1], .arr [.num 1]]
           (fuelBound [.arr [.num 1], .arr [.num 1]]) [(0, 1)]
           (.cmp (([.num 1] : List Value).getD i .vundefined)
             (([.num 1] : List Value).getD i .vundefined)) =
           some (.val true, [(0, 1)]))) ∧
    equals [.args [.num 1], .args [.num 1]] (.ref 0) (.ref 1) =
      some (.val false, []) :=
  ⟨(c5_array_vs_arguments [.arr [.num 1], .arr [.num 1]] 0 1).1
      [.num 1] [.num 1] rfl rfl (by decide),
   (c5_array_vs_arguments [.args [.num 1], .args [.num 1]] 0 1).2
      [.num 1] [.num 1] rfl rfl (by decide)⟩

/-- C5 counterexample: two independently built arguments objects of the
same length whose single elements are deeply equal (third conjunct) are
nevertheless reported unequal, refuting the claimed iff for
ordered-parameter-list containers. -/
theorem c5_counterexample :
    equals [.args [.num 1], .args [.num 1]] (.ref 0) (.ref 1) =
      some (.val false, []) ∧
    typeOf [.args [.num 1], .args [.num 1]] (.ref 0) = some .targuments ∧
    typeOf [.args [.num 1], .args [.num 1]] (.ref 1) = some .targuments ∧
    equals [.args [.num 1], .args [.num 1]] (.num 1) (.num 1) =
      some (.val true, []) := by
  refine ⟨by decide, by decide, by decide, by decide⟩

end Transis
namespace Transis

theorem mirror_nil : mirror [] = [] := rfl

theorem mirror_mirror (s : Seen) : mirror (mirror s) = s := by
  induction s with
  | nil => rfl
  | cons p rest ih =>
    obtain ⟨p1, p2⟩ := p
    simp only [mirror, List.map_cons] at ih ⊢
    rw [ih]

theorem mirror_length (s : Seen) : (mirror s).length = s.length := by
  simp [mirror]

theorem mirror_mem (x y : Nat) (s : Seen) : (y, x) ∈ mirror s ↔ (x, y) ∈ s := by
  simp only [mirror, List.mem_map]
  constructor
  · rintro ⟨⟨p1, p2⟩, hp, he⟩
    simp only [Prod.mk.injEq] at he
    rw [← he.1, ← he.2]
    exact hp
  · intro hm
    exact ⟨(x, y), hm, rfl⟩

theorem mirror_seenPair (x y : Nat) (s : Seen) :
    seenPair y x (mirror s) = seenPair x y s := by
  by_cases hm : (x, y) ∈ s
  · rw [(seenPair_iff x y s).mpr hm, (seenPair_iff y x (mirror s)).mpr ((mirror_mem x y s).mpr hm)]
  · have h1 : seenPair x y s = false := by
      cases hsp : seenPair x y s
      · rfl
      · exact absurd ((seenPair_iff x y s).mp hsp) hm
    have h2 : seenPair y x (mirror s) = false := by
      cases hsp : seenPair y x (mirror s)
      · rfl
      · exact absurd ((mirror_mem x y s).mp ((seenPair_iff y x (mirror s)).mp hsp)) hm
    rw [h1, h2]

theorem mirror_mark (x y : Nat) (s : Seen) :
    mirror (mark x y s) = mark y x (mirror s) := by
  simp [mirror, mark]

theorem mirror_nodup (s : Seen) (hnd : s.Nodup) : (mirror s).Nodup := by
  refine List.Nodup.map ?_ hnd
  intro p q hpq
  cases p; cases q
  simp only [Prod.mk.injEq] at hpq
  simp [hpq.1, hpq.2]

theorem mirror_valid (h : Heap) (s : Seen) (hv : seenValid h s) :
    seenValid h (mirror s) := by
  intro p hp
  simp only [mirror, List.mem_map] at hp
  obtain ⟨⟨p1, p2⟩, hmem, he⟩ := hp
  have := hv _ hmem
  rw [← he]
  exact ⟨this.2, this.1⟩

theorem lookupField_of_mem (fields : List (String × Value)) (k : String) (v : Value)
    (hnd : (fields.map Prod.fst).Nodup) (hm : (k, v) ∈ fields) :
    lookupField fields k = some v := by
  induction fields with
  | nil => cases hm
  | cons p rest ih =>
    obtain ⟨pk, pv⟩ := p
    simp only [List.map_cons, List.nodup_cons] at hnd
    rcases List.mem_cons.mp hm with he | hmem
    · simp only [Prod.mk.injEq] at he
      simp [lookupField, he.1, he.2]
    · have hne : pk ≠ k := by
        intro hcon
        subst hcon
        exact hnd.1 (List.mem_map.mpr ⟨(pk, v), hmem, rfl⟩)
      simp only [lookupField, if_neg hne]
      exact ih hnd.2 hmem

theorem mem_of_lookupField (fields : List (String × Value)) (k : String) (v : Value)
    (hl : lookupField fields k = some v) : (k, v) ∈ fields := by
  induction fields with
  | nil => cases hl
  | cons p rest ih =>
    obtain ⟨pk, pv⟩ := p
    simp only [lookupField] at hl
    split at hl
    · rename_i he
      cases hl
      subst he
      exact List.mem_cons_self _ _
    · exact List.mem_cons_of_mem _ (ih hl)

theorem hasField_iff (fields : List (String × Value)) (k : String) :
    hasField fields k = true ↔ k ∈ fields.map Prod.fst := by
  simp [hasField, List.any_eq_true, List.mem_map, beq_iff_eq]

theorem keys_subset_symm (la lb : List String) (hnda : la.Nodup) (hndb : lb.Nodup)
    (hlen : la.length = lb.length) (hsub : ∀ k ∈ la, k ∈ lb) :
    ∀ k ∈ lb, k ∈ la := by
  classical
  have hsubf : la.toFinset ⊆ lb.toFinset := by
    intro k hk
    rw [List.mem_toFinset] at hk ⊢
    exact hsub k hk
  have hcard : lb.toFinset.card ≤ la.toFinset.card := by
    rw [List.toFinset_card_of_nodup hnda, List.toFinset_card_of_nodup hndb, hlen]
  have heq : la.toFinset = lb.toFinset :=
    Finset.eq_of_subset_of_card_le hsubf hcard
  intro k hk
  rw [← List.mem_toFinset, ← heq, List.mem_toFinset] at hk
  exact hk

end Transis
namespace Transis

/-- Characterization of the key loop of objectEq: it reports true exactly
when, for every own field of the left object, the right side owns the key
and the two values compare deeply equal from the same guard state. -/
theorem cfields_true_iff (h : Heap) (seen : Seen) :
    ∀ (fa : List (String × Value)) (b : Value),
      Runs h seen (.cfields fa b) (.val true, seen) ↔
        ∀ kv ∈ fa, hasOwn h b kv.1 = some true ∧
          Runs h seen (.cmp kv.2 (getMember h b kv.1)) (.val true, seen) := by
  intro fa
  induction fa with
  | nil =>
    intro b
    constructor
    · intro _ kv hkv
      cases hkv
    · intro _
      exact ⟨1, run_cfields_nil h 0 seen b⟩
  | cons kv0 rest ih =>
    obtain ⟨key, v⟩ := kv0
    intro b
    constructor
    · rintro ⟨fuel, hrun⟩
      cases fuel with
      | zero => simp [run] at hrun
      | succ fuel =>
        rw [run_cfields_cons] at hrun
        split at hrun
        · simp at hrun
        · simp at hrun
        · rename_i hown
          split at hrun
          · rename_i s0 heq
            have hs0 := run_seen h fuel seen _ _ s0 heq
            subst hs0
            have htail := (ih b).mp ⟨fuel, hrun⟩
            intro kv hkv
            rcases List.mem_cons.mp hkv with he | hmem
            · subst he
              exact ⟨hown, ⟨fuel, heq⟩⟩
            · exact htail kv hmem
          · rename_i s0 heq
            simp at hrun
          · rename_i s0 heq
            simp at hrun
          · simp at hrun
    · intro hall
      have hhead := hall (key, v) (List.mem_cons_self _ _)
      obtain ⟨f1, h1⟩ := hhead.2
      obtain ⟨f2, h2⟩ := (ih b).mpr (fun kv hkv => hall kv (List.mem_cons_of_mem _ hkv))
      refine ⟨max f1 f2 + 1, ?_⟩
      rw [run_cfields_cons, hhead.1]
      rw [run_mono h f1 (max f1 f2) (le_max_left _ _) seen _ _ h1]
      exact run_mono h f2 (max f1 f2) (le_max_right _ _) seen _ _ h2

/-- Any call from a well-formed guard state produces some result at some
fuel. -/
theorem Runs_total (h : Heap) (seen : Seen) (c : Call) (hnd : seen.Nodup)
    (hv : seenValid h seen) : ∃ res, Runs h seen c res := by
  have hKmono : (maxNodeLen h + 3) * (h.length * h.length + 1 - seen.length) ≤
      (maxNodeLen h + 3) * (h.length * h.length + 1) :=
    Nat.mul_le_mul_left _ (by omega)
  cases c with
  | cmp a b =>
    have hreq : callReq h (1 + (maxNodeLen h + 3) * (h.length * h.length + 1))
        seen (.cmp a b) := by
      rw [callReq_cmp]; omega
    obtain ⟨res, hres⟩ := Option.isSome_iff_exists.mp (run_total h _ seen _ hnd hv hreq)
    exact ⟨res, _, hres⟩
  | carr a b =>
    have hreq : callReq h (1 + (maxNodeLen h + 3) * (h.length * h.length + 1))
        seen (.carr a b) := by
      rw [callReq_carr]; omega
    obtain ⟨res, hres⟩ := Option.isSome_iff_exists.mp (run_total h _ seen _ hnd hv hreq)
    exact ⟨res, _, hres⟩
  | cobj a b =>
    have hreq : callReq h (1 + (maxNodeLen h + 3) * (h.length * h.length + 1))
        seen (.cobj a b) := by
      rw [callReq_cobj]; omega
    obtain ⟨res, hres⟩ := Option.isSome_iff_exists.mp (run_total h _ seen _ hnd hv hreq)
    exact ⟨res, _, hres⟩
  | celems as_ bs =>
    have hreq : callReq h (as_.length + (maxNodeLen h + 3) * (h.length * h.length + 1))
        seen (.celems as_ bs) := by
      rw [callReq_celems]; omega
    obtain ⟨res, hres⟩ := Option.isSome_iff_exists.mp (run_total h _ seen _ hnd hv hreq)
    exact ⟨res, _, hres⟩
  | cfields fa b =>
    have hreq : callReq h (fa.length + (maxNodeLen h + 3) * (h.length * h.length + 1))
        seen (.cfields fa b) := by
      rw [callReq_cfields]; omega
    obtain ⟨res, hres⟩ := Option.isSome_iff_exists.mp (run_total h _ seen _ hnd hv hreq)
    exact ⟨res, _, hres⟩

theorem delegateFree_none (h : Heap) (hdf : delegateFreeB h = true) (v : Value) :
    delegateOf h v = none := by
  have h12 := hdf
  unfold delegateFreeB at h12
  rw [Bool.and_eq_true] at h12
  cases v <;> try rfl
  rename_i a
  by_cases ha : a < h.length
  · have := List.all_eq_true.mp h12.1 a (List.mem_range.mpr ha)
    simpa [Option.isNone_iff_eq_none] using this
  · simp only [delegateOf]
    rw [List.getElem?_eq_none (by omega)]

theorem delegateFree_no_transis (h : Heap) (hdf : delegateFreeB h = true)
    (x oid : Nat) (fn : Value → Bool) (flds : List (String × Value)) :
    h[x]? ≠ some (.transis oid fn flds) := by
  intro hcon
  have h12 := hdf
  unfold delegateFreeB at h12
  rw [Bool.and_eq_true] at h12
  have := List.all_eq_true.mp h12.2 _ (List.getElem?_mem hcon)
  simp at this

theorem keysOK_obj (h : Heap) (hko : keysOKB h = true) (x : Nat) (hp : Bool)
    (fields : List (String × Value)) (hg : h[x]? = some (.obj hp fields)) :
    (fields.map Prod.fst).Nodup := by
  have := List.all_eq_true.mp hko _ (List.getElem?_mem hg)
  simpa using this

theorem jsStrictEq_comm (a b : Value) : jsStrictEq a b = jsStrictEq b a := by
  cases a <;> cases b <;> simp [jsStrictEq] <;> exact eq_comm

theorem jsStrictEq_refl (a : Value) (ha : a ≠ .nan) : jsStrictEq a a = true := by
  cases a <;> simp [jsStrictEq]
  exact absurd rfl ha

theorem primEq_comm (p q : PrimVal) : primEq p q = primEq q p := by
  cases p <;> cases q <;> simp [primEq] <;> exact eq_comm

theorem regexpEq_comm (h : Heap) (a b : Value) : regexpEq h a b = regexpEq h b a := by
  cases a <;> cases b <;> try rfl
  rename_i x y
  simp only [regexpEq]
  cases hx : h[x]? with
  | none =>
    cases hy : h[y]? with
    | none => rfl
    | some n => cases n <;> rfl
  | some n =>
    cases hy : h[y]? with
    | none => cases n <;> rfl
    | some m =>
      cases n <;> cases m <;> try rfl
      rw [Bool.eq_iff_iff]
      simp only [Bool.and_eq_true, beq_iff_eq]
      constructor <;> (rintro ⟨⟨⟨e1, e2⟩, e3⟩, e4⟩; exact ⟨⟨⟨e1.symm, e2.symm⟩, e3.symm⟩, e4.symm⟩)

end Transis
namespace Transis

theorem typeOf_tarray (h : Heap) (a : Value) (hta : typeOf h a = some .tarray) :
    ∃ x as_, a = .ref x ∧ h[x]? = some (.arr as_) := by
  cases a <;> simp [typeOf] at hta
  rename_i x
  cases hg : h[x]? with
  | none => rw [hg] at hta; simp at hta
  | some n =>
    rw [hg] at hta
    cases n
    case arr es => exact ⟨x, es, rfl, hg⟩
    case obj hp fields =>
      cases hp <;> cases hcf : hasField fields "callee" <;> simp [hcf] at hta
    case transis oid fn fields =>
      cases hcf : hasField fields "callee" <;> simp [hcf] at hta
    all_goals simp at hta

theorem typeOf_tobject_struct (h : Heap) (hdf : delegateFreeB h = true)
    (a : Value) (hta : typeOf h a = some .tobject) :
    ∃ x fields, a = .ref x ∧ h[x]? = some (.obj true fields) ∧
      hasField fields "callee" = false := by
  cases a <;> simp [typeOf] at hta
  rename_i x
  cases hg : h[x]? with
  | none => rw [hg] at hta; simp at hta
  | some n =>
    rw [hg] at hta
    cases n
    case obj hp fields =>
      cases hp <;> cases hcf : hasField fields "callee" <;> simp [hcf] at hta
      exact ⟨x, fields, rfl, hg, hcf⟩
    case transis oid fn fields =>
      exact absurd hg (delegateFree_no_transis h hdf x oid fn fields)
    all_goals simp at hta

theorem ownFields_obj (h : Heap) (x : Nat) (hp : Bool)
    (fields : List (String × Value)) (hg : h[x]? = some (.obj hp fields)) :
    ownFields h x = some fields := by
  simp [ownFields, hg]

theorem hasOwn_obj (h : Heap) (y : Nat) (fields : List (String × Value))
    (key : String) (hg : h[y]? = some (.obj true fields)) :
    hasOwn h (.ref y) key = some (hasField fields key) := by
  simp [hasOwn, hg]

theorem getMember_obj (h : Heap) (y : Nat) (hp : Bool)
    (fields : List (String × Value)) (key : String)
    (hg : h[y]? = some (.obj hp fields)) :
    getMember h (.ref y) key = (lookupField fields key).getD .vundefined := by
  simp [getMember, hg]

theorem assemble_cmp_arr (h : Heap) (hdf : delegateFreeB h = true)
    (x y : Nat) (as_ bs : List Value) (seen : Seen) (f : Nat) (r : Bool)
    (hx : h[x]? = some (.arr as_)) (hy : h[y]? = some (.arr bs))
    (hne : jsStrictEq (.ref x) (.ref y) = false)
    (hlen : as_.length = bs.length)
    (hmiss : seenPair x y seen = false)
    (hfresh : (x, y) ∉ seen)
    (hcel : run h f (mark x y seen) (.celems as_ bs) = some (.val r, mark x y seen)) :
    run h (f + 2) seen (.cmp (.ref x) (.ref y)) = some (.val r, seen) := by
  have hstep : run h (f + 2) seen (.cmp (.ref x) (.ref y)) =
      run h (f + 1) seen (.carr (.ref x) (.ref y)) := by
    rw [show f + 2 = (f + 1) + 1 from rfl, run_cmp, hne]
    simp [delegateFree_none h hdf (.ref x),
      show typeOf h (.ref x) = some .tarray from by simp [typeOf, hx],
      show typeOf h (.ref y) = some .tarray from by simp [typeOf, hy]]
  rw [hstep, run_carr_arrs h f seen x y as_ bs hx hy, if_pos hlen,
    if_neg (by simp [hmiss]), hcel]
  show some (EvalR.val r, unmark x y (mark x y seen)) = some (EvalR.val r, seen)
  rw [unmark_mark x y seen hfresh]

theorem assemble_cmp_obj (h : Heap) (hdf : delegateFreeB h = true)
    (x y : Nat) (fa fb : List (String × Value)) (seen : Seen) (f : Nat) (r : Bool)
    (hx : h[x]? = some (.obj true fa)) (hy : h[y]? = some (.obj true fb))
    (hcalx : hasField fa "callee" = false) (hcaly : hasField fb "callee" = false)
    (hne : jsStrictEq (.ref x) (.ref y) = false)
    (hlen : fa.length = fb.length)
    (hmiss : seenPair x y seen = false)
    (hfresh : (x, y) ∉ seen)
    (hcf : run h f (mark x y seen) (.cfields fa (.ref y)) = some (.val r, mark x y seen)) :
    run h (f + 2) seen (.cmp (.ref x) (.ref y)) = some (.val r, seen) := by
  have hstep : run h (f + 2) seen (.cmp (.ref x) (.ref y)) =
      run h (f + 1) seen (.cobj (.ref x) (.ref y)) := by
    rw [show f + 2 = (f + 1) + 1 from rfl, run_cmp, hne]
    simp [delegateFree_none h hdf (.ref x),
      show typeOf h (.ref x) = some .tobject from by simp [typeOf, hx, hcalx],
      show typeOf h (.ref y) = some .tobject from by simp [typeOf, hy, hcaly]]
  rw [hstep, run_cobj_fields h f seen x y fa fb
    (ownFields_obj h x true fa hx) (ownFields_obj h y true fb hy),
    if_pos hlen, if_neg (by simp [hmiss]), hcf]
  show some (EvalR.val r, unmark x y (mark x y seen)) = some (EvalR.val r, seen)
  rw [unmark_mark x y seen hfresh]

end Transis
namespace Transis

/-- Transfer of the objectEq key-loop success condition to the mirrored
comparison: with equal key counts and distinct keys on both sides, if every
own field of the left object is owned by the right with deeply equal value,
then the same holds with the roles reversed. -/
theorem cfields_transfer (h : Heap) (x y : Nat) (fa fb : List (String × Value))
    (s : Seen) (hx : h[x]? = some (.obj true fa)) (hy : h[y]? = some (.obj true fb))
    (hnda : (fa.map Prod.fst).Nodup) (hndb : (fb.map Prod.fst).Nodup)
    (hlen : fa.length = fb.length)
    (hIH : ∀ v w, Runs h s (.cmp v w) (.val true, s) →
      Runs h (mirror s) (.cmp w v) (.val true, mirror s))
    (hchar : ∀ kv ∈ fa, hasOwn h (.ref y) kv.1 = some true ∧
      Runs h s (.cmp kv.2 (getMember h (.ref y) kv.1)) (.val true, s)) :
    ∀ kv ∈ fb, hasOwn h (.ref x) kv.1 = some true ∧
      Runs h (mirror s) (.cmp kv.2 (getMember h (.ref x) kv.1))
        (.val true, mirror s) := by
  have hsub : ∀ k ∈ fa.map Prod.fst, k ∈ fb.map Prod.fst := by
    intro k hk
    obtain ⟨⟨k0, v0⟩, hmem, he⟩ := List.mem_map.mp hk
    simp only at he
    subst he
    have h1 := (hchar _ hmem).1
    rw [hasOwn_obj h y fb k0 hy] at h1
    exact (hasField_iff fb k0).mp (Option.some.inj h1)
  have hsub2 := keys_subset_symm (fa.map Prod.fst) (fb.map Prod.fst) hnda hndb
    (by simp [hlen]) hsub
  rintro ⟨k, w⟩ hmem
  have hkfb : k ∈ fb.map Prod.fst := List.mem_map.mpr ⟨(k, w), hmem, rfl⟩
  have hkfa : k ∈ fa.map Prod.fst := hsub2 k hkfb
  obtain ⟨⟨k1, v⟩, hvmem, he⟩ := List.mem_map.mp hkfa
  simp only at he
  subst he
  constructor
  · rw [hasOwn_obj h x fa k1 hx, (hasField_iff fa k1).mpr hkfa]
  · have hfwd := (hchar _ hvmem).2
    rw [getMember_obj h y true fb k1 hy,
      lookupField_of_mem fb k1 w hndb hmem, Option.getD_some] at hfwd
    have hm := hIH v w hfwd
    rw [getMember_obj h x true fa k1 hx,
      lookupField_of_mem fa k1 v hnda hvmem, Option.getD_some]
    exact hm

end Transis
namespace Transis

/-- Symmetry of the structural path: over a delegate-free heap with
prototypes and distinct object keys, a completed comparison and its mirror
(arguments and every guard pair swapped) produce the same boolean. -/
theorem swap_main (h : Heap) (hdf : delegateFreeB h = true)
    (hpo : protoOKB h = true) (hko : keysOKB h = true) :
    ∀ (q : Nat) (seen : Seen) (a b : Value) (r : Bool),
      seen.Nodup → seenValid h seen →
      h.length * h.length + 1 ≤ q + seen.length →
      Runs h seen (.cmp a b) (.val r, seen) →
      Runs h (mirror seen) (.cmp b a) (.val r, mirror seen) := by
  intro q
  induction q with
  | zero =>
    intro seen a b r hnd hv hq _
    exfalso
    have := seen_length_le h seen hnd hv
    omega
  | succ q ih =>
    intro seen a b r hnd hv hq hruns
    obtain ⟨fuel, hrun⟩ := hruns
    cases fuel with
    | zero => simp [run] at hrun
    | succ fuel =>
      rw [run_cmp] at hrun
      split at hrun
      · -- identity
        rename_i hid
        simp only [Option.some.injEq, Prod.mk.injEq, EvalR.val.injEq] at hrun
        obtain ⟨hr1, -⟩ := hrun
        refine ⟨1, ?_⟩
        rw [show (1 : Nat) = 0 + 1 from rfl, run_cmp, jsStrictEq_comm b a, hid,
          ← hr1]
        simp
      rename_i hnid
      have hne : jsStrictEq a b = false := by
        revert hnid
        cases jsStrictEq a b <;> simp
      split at hrun
      · -- delegate: impossible on a delegate-free heap
        rename_i f0 hdel
        rw [delegateFree_none h hdf a] at hdel
        cases hdel
      split at hrun
      · -- typeOf a threw: result is thrown, not a boolean
        simp at hrun
      rename_i ta0 hta
      split at hrun
      · -- typeOf b threw
        simp at hrun
      rename_i tb0 htb
      split at hrun
      · -- tags equal
        rename_i htag
        subst htag
        split at hrun
        · -- boolean
          simp only [Option.some.injEq, Prod.mk.injEq, EvalR.val.injEq] at hrun
          obtain ⟨hr1, -⟩ := hrun
          refine ⟨1, ?_⟩
          rw [show (1 : Nat) = 0 + 1 from rfl, run_cmp, jsStrictEq_comm b a, hne]
          simp only [Bool.false_eq_true, if_false, delegateFree_none h hdf b,
            htb, hta]
          rw [if_pos trivial, ← hr1, primEq_comm (valueOfV h b) (valueOfV h a)]
        · -- string
          simp only [Option.some.injEq, Prod.mk.injEq, EvalR.val.injEq] at hrun
          obtain ⟨hr1, -⟩ := hrun
          refine ⟨1, ?_⟩
          rw [show (1 : Nat) = 0 + 1 from rfl, run_cmp, jsStrictEq_comm b a, hne]
          simp only [Bool.false_eq_true, if_false, delegateFree_none h hdf b,
            htb, hta]
          rw [if_pos trivial, ← hr1, primEq_comm (valueOfV h b) (valueOfV h a)]
        · -- date
          simp only [Option.some.injEq, Prod.mk.injEq, EvalR.val.injEq] at hrun
          obtain ⟨hr1, -⟩ := hrun
          refine ⟨1, ?_⟩
          rw [show (1 : Nat) = 0 + 1 from rfl, run_cmp, jsStrictEq_comm b a, hne]
          simp only [Bool.false_eq_true, if_false, delegateFree_none h hdf b,
            htb, hta]
          rw [if_pos trivial, ← hr1, primEq_comm (valueOfV h b) (valueOfV h a)]
        · -- number
          simp only [Option.some.injEq, Prod.mk.injEq, EvalR.val.injEq] at hrun
          obtain ⟨hr1, -⟩ := hrun
          refine ⟨1, ?_⟩
          rw [show (1 : Nat) = 0 + 1 from rfl, run_cmp, jsStrictEq_comm b a, hne]
          simp only [Bool.false_eq_true, if_false, delegateFree_none h hdf b,
            htb, hta]
          rw [if_pos trivial, ← hr1, primEq_comm (valueOfV h b) (valueOfV h a)]
        · -- regexp
          simp only [Option.some.injEq, Prod.mk.injEq, EvalR.val.injEq] at hrun
          obtain ⟨hr1, -⟩ := hrun
          refine ⟨1, ?_⟩
          rw [show (1 : Nat) = 0 + 1 from rfl, run_cmp, jsStrictEq_comm b a, hne]
          simp only [Bool.false_eq_true, if_false, delegateFree_none h hdf b,
            htb, hta]
          rw [if_pos trivial, ← hr1, regexpEq_comm h b a]
        · -- array
          obtain ⟨x, as_, ha, hx⟩ := typeOf_tarray h a hta
          obtain ⟨y, bs, hb, hy⟩ := typeOf_tarray h b htb
          subst ha
          subst hb
          cases fuel with
          | zero => simp [run] at hrun
          | succ f =>
            rw [run_carr_arrs h f seen x y as_ bs hx hy] at hrun
            have hstep : run h 2 (mirror seen) (.cmp (.ref y) (.ref x)) =
                run h 1 (mirror seen) (.carr (.ref y) (.ref x)) := by
              rw [show (2 : Nat) = 1 + 1 from rfl, run_cmp,
                jsStrictEq_comm (.ref y) (.ref x), hne]
              simp [delegateFree_none h hdf (.ref y),
                show typeOf h (.ref y) = some .tarray from by simp [typeOf, hy],
                show typeOf h (.ref x) = some .tarray from by simp [typeOf, hx]]
            have hnem : jsStrictEq (.ref y) (.ref x) = false := by
              rw [jsStrictEq_comm]
              exact hne
            by_cases hlen : as_.length = bs.length
            · rw [if_pos hlen] at hrun
              by_cases hsp : seenPair x y seen = true
              · rw [if_pos hsp] at hrun
                simp only [Option.some.injEq, Prod.mk.injEq, EvalR.val.injEq] at hrun
                obtain ⟨hr1, -⟩ := hrun
                refine ⟨2, ?_⟩
                rw [hstep, run_carr_arrs h 0 (mirror seen) y x bs as_ hy hx,
                  if_pos hlen.symm, if_pos (by rw [mirror_seenPair]; exact hsp),
                  ← hr1]
              · have hspf : seenPair x y seen = false := by
                  revert hsp
                  cases seenPair x y seen <;> simp
                rw [if_neg hsp] at hrun
                split at hrun
                · simp at hrun
                · rename_i rc sc heqc
                  simp only [Option.some.injEq, Prod.mk.injEq] at hrun
                  have hsc := run_seen h f (mark x y seen) _ rc sc heqc
                  subst hsc
                  obtain ⟨hrc, -⟩ := hrun
                  subst hrc
                  have hfresh : (x, y) ∉ seen := fun hm => by
                    rw [(seenPair_iff x y seen).mpr hm] at hspf
                    cases hspf
                  have hnd1 := mark_nodup x y seen hnd hfresh
                  have hv1 := mark_valid h x y seen hv (get?_lt _ _ _ hx)
                    (get?_lt _ _ _ hy)
                  have hq1 : h.length * h.length + 1 ≤ q + (mark x y seen).length := by
                    rw [mark_length]
                    omega
                  have hndm1 : (mark y x (mirror seen)).Nodup := by
                    rw [← mirror_mark]
                    exact mirror_nodup _ hnd1
                  have hvm1 : seenValid h (mark y x (mirror seen)) := by
                    rw [← mirror_mark]
                    exact mirror_valid h _ hv1
                  have hq1m : h.length * h.length + 1 ≤
                      q + (mark y x (mirror seen)).length := by
                    rw [mark_length, mirror_length]
                    omega
                  have hfreshm : (y, x) ∉ mirror seen := fun hm =>
                    hfresh ((mirror_mem x y seen).mp hm)
                  have hmissm : seenPair y x (mirror seen) = false := by
                    rw [mirror_seenPair]
                    exact hspf
                  cases r with
                  | true =>
                    have hchar := (celems_true_iff h (mark x y seen) as_ bs).mp
                      ⟨f, heqc⟩
                    have hcharM : ∀ i < bs.length,
                        Runs h (mark y x (mirror seen))
                          (.cmp (bs.getD i .vundefined) (as_.getD i .vundefined))
                          (.val true, mark y x (mirror seen)) := by
                      intro i hi
                      rw [← mirror_mark]
                      exact ih (mark x y seen) _ _ true hnd1 hv1 hq1
                        (hchar i (by omega))
                    obtain ⟨fm, hfm⟩ :=
                      (celems_true_iff h (mark y x (mirror seen)) bs as_).mpr hcharM
                    exact ⟨fm + 2, assemble_cmp_arr h hdf y x bs as_ (mirror seen)
                      fm true hy hx hnem hlen.symm hmissm hfreshm hfm⟩
                  | false =>
                    obtain ⟨⟨rm, sm⟩, fm, hfm⟩ :=
                      Runs_total h (mark y x (mirror seen)) (.celems bs as_)
                        hndm1 hvm1
                    have hsm := run_seen h fm _ _ rm sm hfm
                    subst hsm
                    cases rm with
                    | thrown => exact absurd rfl (run_noThrow h hpo fm _ _ _ _ hfm)
                    | val rb =>
                      cases rb with
                      | true =>
                        exfalso
                        have hcharM :=
                          (celems_true_iff h (mark y x (mirror seen)) bs as_).mp
                            ⟨fm, hfm⟩
                        have hcharF : ∀ i < as_.length,
                            Runs h (mark x y seen)
                              (.cmp (as_.getD i .vundefined) (bs.getD i .vundefined))
                              (.val true, mark x y seen) := by
                          intro i hi
                          have hmm := ih (mark y x (mirror seen)) _ _ true hndm1
                            hvm1 hq1m (hcharM i (by omega))
                          rw [mirror_mark, mirror_mirror] at hmm
                          exact hmm
                        obtain ⟨ff, hff⟩ :=
                          (celems_true_iff h (mark x y seen) as_ bs).mpr hcharF
                        have hctr := run_det h ff f (mark x y seen)
                          (.celems as_ bs) _ _ hff heqc
                        simp at hctr
                      | false =>
                        exact ⟨fm + 2, assemble_cmp_arr h hdf y x bs as_
                          (mirror seen) fm false hy hx hnem hlen.symm hmissm
                          hfreshm hfm⟩
            · rw [if_neg hlen] at hrun
              simp only [Option.some.injEq, Prod.mk.injEq, EvalR.val.injEq] at hrun
              obtain ⟨hr1, -⟩ := hrun
              refine ⟨2, ?_⟩
              rw [hstep, run_carr_arrs h 0 (mirror seen) y x bs as_ hy hx,
                if_neg (fun hc => hlen hc.symm), ← hr1]
        · -- object
          obtain ⟨x, fa, ha, hx, hcalx⟩ := typeOf_tobject_struct h hdf a hta
          obtain ⟨y, fb, hb, hy, hcaly⟩ := typeOf_tobject_struct h hdf b htb
          subst ha
          subst hb
          cases fuel with
          | zero => simp [run] at hrun
          | succ f =>
            rw [run_cobj_fields h f seen x y fa fb
              (ownFields_obj h x true fa hx) (ownFields_obj h y true fb hy)] at hrun
            have hstep : run h 2 (mirror seen) (.cmp (.ref y) (.ref x)) =
                run h 1 (mirror seen) (.cobj (.ref y) (.ref x)) := by
              rw [show (2 : Nat) = 1 + 1 from rfl, run_cmp,
                jsStrictEq_comm (.ref y) (.ref x), hne]
              simp [delegateFree_none h hdf (.ref y),
                show typeOf h (.ref y) = some .tobject from by
                  simp [typeOf, hy, hcaly],
                show typeOf h (.ref x) = some .tobject from by
                  simp [typeOf, hx, hcalx]]
            have hnem : jsStrictEq (.ref y) (.ref x) = false := by
              rw [jsStrictEq_comm]
              exact hne
            have hnda := keysOK_obj h hko x true fa hx
            have hndb := keysOK_obj h hko y true fb hy
            by_cases hlen : fa.length = fb.length
            · rw [if_pos hlen] at hrun
              by_cases hsp : seenPair x y seen = true
              · rw [if_pos hsp] at hrun
                simp only [Option.some.injEq, Prod.mk.injEq, EvalR.val.injEq] at hrun
                obtain ⟨hr1, -⟩ := hrun
                refine ⟨2, ?_⟩
                rw [hstep, run_cobj_fields h 0 (mirror seen) y x fb fa
                    (ownFields_obj h y true fb hy) (ownFields_obj h x true fa hx),
                  if_pos hlen.symm, if_pos (by rw [mirror_seenPair]; exact hsp),
                  ← hr1]
              · have hspf : seenPair x y seen = false := by
                  revert hsp
                  cases seenPair x y seen <;> simp
                rw [if_neg hsp] at hrun
                split at hrun
                · simp at hrun
                · rename_i rc sc heqc
                  simp only [Option.some.injEq, Prod.mk.injEq] at hrun
                  have hsc := run_seen h f (mark x y seen) _ rc sc heqc
                  subst hsc
                  obtain ⟨hrc, -⟩ := hrun
                  subst hrc
                  have hfresh : (x, y) ∉ seen := fun hm => by
                    rw [(seenPair_iff x y seen).mpr hm] at hspf
                    cases hspf
                  have hnd1 := mark_nodup x y seen hnd hfresh
                  have hv1 := mark_valid h x y seen hv (get?_lt _ _ _ hx)
                    (get?_lt _ _ _ hy)
                  have hq1 : h.length * h.length + 1 ≤ q + (mark x y seen).length := by
                    rw [mark_length]
                    omega
                  have hndm1 : (mark y x (mirror seen)).Nodup := by
                    rw [← mirror_mark]
                    exact mirror_nodup _ hnd1
                  have hvm1 : seenValid h (mark y x (mirror seen)) := by
                    rw [← mirror_mark]
                    exact mirror_valid h _ hv1
                  have hq1m : h.length * h.length + 1 ≤
                      q + (mark y x (mirror seen)).length := by
                    rw [mark_length, mirror_length]
                    omega
                  have hfreshm : (y, x) ∉ mirror seen := fun hm =>
                    hfresh ((mirror_mem x y seen).mp hm)
                  have hmissm : seenPair y x (mirror seen) = false := by
                    rw [mirror_seenPair]
                    exact hspf
                  cases r with
                  | true =>
                    have hchar := (cfields_true_iff h (mark x y seen) fa (.ref y)).mp
                      ⟨f, heqc⟩
                    have htrans := cfields_transfer h x y fa fb (mark x y seen)
                      hx hy hnda hndb hlen
                      (fun v w hr => ih (mark x y seen) v w true hnd1 hv1 hq1 hr)
                      hchar
                    simp only [mirror_mark] at htrans
                    obtain ⟨fm, hfm⟩ :=
                      (cfields_true_iff h (mark y x (mirror seen)) fb (.ref x)).mpr
                        htrans
                    exact ⟨fm + 2, assemble_cmp_obj h hdf y x fb fa (mirror seen)
                      fm true hy hx hcaly hcalx hnem hlen.symm hmissm hfreshm hfm⟩
                  | false =>
                    obtain ⟨⟨rm, sm⟩, fm, hfm⟩ :=
                      Runs_total h (mark y x (mirror seen)) (.cfields fb (.ref x))
                        hndm1 hvm1
                    have hsm := run_seen h fm _ _ rm sm hfm
                    subst hsm
                    cases rm with
                    | thrown => exact absurd rfl (run_noThrow h hpo fm _ _ _ _ hfm)
                    | val rb =>
                      cases rb with
                      | true =>
                        exfalso
                        have hcharM :=
                          (cfields_true_iff h (mark y x (mirror seen)) fb
                            (.ref x)).mp ⟨fm, hfm⟩
                        have htrans := cfields_transfer h y x fb fa
                          (mark y x (mirror seen)) hy hx hndb hnda hlen.symm
                          (fun v w hr => ih (mark y x (mirror seen)) v w true
                            hndm1 hvm1 hq1m hr)
                          hcharM
                        simp only [mirror_mark, mirror_mirror] at htrans
                        obtain ⟨ff, hff⟩ :=
                          (cfields_true_iff h (mark x y seen) fa (.ref y)).mpr
                            htrans
                        have hctr := run_det h ff f (mark x y seen)
                          (.cfields fa (.ref y)) _ _ hff heqc
                        simp at hctr
                      | false =>
                        exact ⟨fm + 2, assemble_cmp_obj h hdf y x fb fa
                          (mirror seen) fm false hy hx hcaly hcalx hnem
                          hlen.symm hmissm hfreshm hfm⟩
            · rw [if_neg hlen] at hrun
              simp only [Option.some.injEq, Prod.mk.injEq, EvalR.val.injEq] at hrun
              obtain ⟨hr1, -⟩ := hrun
              refine ⟨2, ?_⟩
              rw [hstep, run_cobj_fields h 0 (mirror seen) y x fb fa
                  (ownFields_obj h y true fb hy) (ownFields_obj h x true fa hx),
                if_neg (fun hc => hlen hc.symm), ← hr1]
        · -- remaining tags: dispatch default, false on both sides
          simp only [Option.some.injEq, Prod.mk.injEq, EvalR.val.injEq] at hrun
          obtain ⟨hr1, -⟩ := hrun
          refine ⟨1, ?_⟩
          rw [show (1 : Nat) = 0 + 1 from rfl, run_cmp, jsStrictEq_comm b a, hne]
          simp only [Bool.false_eq_true, if_false, delegateFree_none h hdf b,
            htb, hta]
          rw [if_pos trivial, ← hr1]
      · -- tags differ
        rename_i htag
        simp only [Option.some.injEq, Prod.mk.injEq, EvalR.val.injEq] at hrun
        obtain ⟨hr1, -⟩ := hrun
        refine ⟨1, ?_⟩
        rw [show (1 : Nat) = 0 + 1 from rfl, run_cmp, jsStrictEq_comm b a, hne]
        simp only [Bool.false_eq_true, if_false, delegateFree_none h hdf b,
          htb, hta]
        rw [if_neg (fun hc => htag hc.symm), ← hr1]

end Transis
namespace Transis

/-- C7 (amended): equals is symmetric whenever the whole heap is free of
delegate-capable values (no model-object instances and no object carrying
a truthy objectId with a callable eq — a delegate nested anywhere breaks
symmetry, see the counterexample), every object has a prototype (a
prototype-less object makes one side throw where the other returns), and
objects have distinct keys; and equals is reflexive for every value except
the not-a-number sentinel, for which equals(nan, nan) is false. -/
theorem c7_symmetry (h : Heap) (a b : Value)
    (hdf : delegateFreeB h = true) (hpo : protoOKB h = true)
    (hko : keysOKB h = true) :
    equals h a b = equals h b a ∧
    (a ≠ .nan → equals h a a = some (.val true, [])) := by
  constructor
  · obtain ⟨⟨r1, s1⟩, h1⟩ := Option.isSome_iff_exists.mp (equals_isSome h a b)
    have h1' : run h (fuelBound h) [] (.cmp a b) = some (r1, s1) := h1
    have hs1 := run_seen h (fuelBound h) [] _ r1 s1 h1'
    subst hs1
    have hnt1 := run_noThrow h hpo (fuelBound h) [] _ r1 [] h1'
    cases r1 with
    | thrown => exact absurd rfl hnt1
    | val b1 =>
      have hsw := swap_main h hdf hpo hko (h.length * h.length + 1) [] a b b1
        List.nodup_nil (seenValid_nil h) (by simp) ⟨fuelBound h, h1'⟩
      rw [mirror_nil] at hsw
      obtain ⟨⟨r2, s2⟩, h2⟩ := Option.isSome_iff_exists.mp (equals_isSome h b a)
      have h2' : run h (fuelBound h) [] (.cmp b a) = some (r2, s2) := h2
      have hs2 := run_seen h (fuelBound h) [] _ r2 s2 h2'
      subst hs2
      have hdet := Runs_det h [] (.cmp b a) _ _ ⟨fuelBound h, h2'⟩ hsw
      simp only [Prod.mk.injEq] at hdet
      rw [show equals h a b = some (.val b1, []) from h1',
        show equals h b a = some (r2, []) from h2', hdet.1]
  · intro hna
    obtain ⟨F, hF⟩ := fuelBound_succ h
    simp only [equals, eq]
    rw [hF, run_cmp, jsStrictEq_refl a hna]
    simp

theorem c7_witness :
    equals [.arr [.num 1, .ref 0], .obj true [("k", .num 2)]]
        (.ref 0) (.ref 1) =
      equals [.arr [.num 1, .ref 0], .obj true [("k", .num 2)]]
        (.ref 1) (.ref 0) ∧
    (Value.ref 0 ≠ Value.nan →
      equals [.arr [.num 1, .ref 0], .obj true [("k", .num 2)]]
        (.ref 0) (.ref 0) = some (.val true, [])) :=
  c7_symmetry [.arr [.num 1, .ref 0], .obj true [("k", .num 2)]]
    (.ref 0) (.ref 1) (by decide) (by decide) (by decide)

/-- C7 counterexample: neither top-level operand exposes the delegate
capability (third and fourth conjuncts), yet equals is asymmetric because a
model-object instance nested one level down delegates in one orientation
only; and reflexivity fails at the not-a-number sentinel (last conjunct),
refuting both parts of the claim as stated. -/
theorem c7_counterexample :
    equals [.obj true [("k", .ref 1)], .transis 1 (fun _ => true) [],
        .obj true [("k", .ref 3)], .obj true [("x", .num 1)]]
      (.ref 0) (.ref 2) = some (.val true, []) ∧
    equals [.obj true [("k", .ref 1)], .transis 1 (fun _ => true) [],
        .obj true [("k", .ref 3)], .obj true [("x", .num 1)]]
      (.ref 2) (.ref 0) = some (.val false, []) ∧
    delegateOf [.obj true [("k", .ref 1)], .transis 1 (fun _ => true) [],
        .obj true [("k", .ref 3)], .obj true [("x", .num 1)]]
      (.ref 0) = none ∧
    delegateOf [.obj true [("k", .ref 1)], .transis 1 (fun _ => true) [],
        .obj true [("k", .ref 3)], .obj true [("x", .num 1)]]
      (.ref 2) = none ∧
    equals [.obj true [("k", .ref 1)], .transis 1 (fun _ => true) [],
        .obj true [("k", .ref 3)], .obj true [("x", .num 1)]]
      .nan .nan = some (.val false, []) := by
  refine ⟨by decide, by decide, rfl, rfl, by decide⟩

end Transis
